import Mathlib

/-!
Verification development for the WeddHelp seating optimizer.

The definitions below are a shallow embedding of the seating core in
`src/utils/seatingOptimizer.ts` (the `amount`-weighted version of
`optimizeSeating` and its helper `groupGuestsByRelationship`).  TypeScript
numbers that hold seat counts are modelled as `Nat` (the code applies
`g.amount || 1`, so the effective amount is always ≥ 1); capacities and free
space are modelled as `Int` because the configuration is never validated and
may be non-positive.  JavaScript objects keyed by `table-<n>` are modelled as
insertion-ordered association lists `List (Nat × WTable)` (object keys of the
form `table-<n>` are not array indices, so JS preserves insertion order for
them).  `Array.prototype.sort` is stable (ES2019); any stable sort computes
the same list, so a structural insertion sort is used.  The `onProgress`
callback, `maxIterations` and `timeoutMs` are never read by the algorithm
itself and are omitted / carried unused.  The two `while` loops are modelled
with explicit fuel `gs.length + 1`: every iteration that recurses strictly
shrinks the unseated list, so the fuel is never exhausted; the fuel-zero
branch mirrors the loop exit with the current state.
-/

/-- Guest side, declaration order groom, bride, both (`types/guest.ts`). -/
inductive Side where
  | groom
  | bride
  | both
deriving DecidableEq, Repr

/-- Guest category, declaration order family, friend, colleague, other. -/
inductive Category where
  | family
  | friend
  | colleague
  | other
deriving DecidableEq, Repr

/-- A guest record (`types/guest.ts`).  Fields the optimizer never reads
(`age`, `phoneNumber`, `notes`, `conflictsWith`) are omitted; `tableId` is
kept because the spec talks about it (the core never reads it). -/
structure Guest where
  id : String
  name : String := ""
  category : Category
  side : Side
  groupId : Option String := none
  tableId : Option String := none
  amount : Option Nat := none
deriving DecidableEq, Repr

/-- Effective seat weight: the code always reads `g.amount || 1`, so a
missing amount and an amount of `0` both count as `1`. -/
def amountOf (g : Guest) : Nat :=
  match g.amount with
  | some 0 => 1
  | some n => n
  | none => 1

/-- `getGuestsSize`: the summed seat weight of a guest list. -/
def sumAmt (l : List Guest) : Nat :=
  (l.map amountOf).sum

/-- Knight-table configuration (`OptimizationConfig.knightConfig`). -/
structure KnightConfig where
  enabled : Bool
  count : Int
  capacity : Int
deriving DecidableEq, Repr

/-- Optimizer configuration (`OptimizationConfig`).  `onProgress` is a pure
observer and is dropped; `maxIterations`/`timeoutMs` are never read. -/
structure OptimizationConfig where
  maxIterations : Option Nat := none
  timeoutMs : Option Nat := none
  tableCapacity : Option Int := none
  knightConfig : Option KnightConfig := none
  knightGroupNames : Option (List String) := none
deriving DecidableEq, Repr

/-- Default knight configuration used by destructuring in `optimizeSeating`. -/
def defaultKnight : KnightConfig :=
  { enabled := false, count := 0, capacity := 20 }

/-- Lower-case a string by mapping `Char.toLower` over its characters: the
structural equivalent of `String.toLower` (JS `toLowerCase`; the group
names compared here are plain ASCII). -/
def lowerStr (s : String) : String :=
  ⟨s.data.map Char.toLower⟩

/-- Remove leading and trailing whitespace characters: the structural
equivalent of `String.trim` (JS `trim`). -/
def trimStr (s : String) : String :=
  ⟨((s.data.dropWhile Char.isWhitespace).reverse.dropWhile Char.isWhitespace).reverse⟩

/-- Normalization helper: `(s) => s.trim().toLowerCase()`. -/
def normalizeName (s : String) : String :=
  lowerStr (trimStr s)

/-- Working table state: the value stored in `tableAssignments`.  `side`
and `category` use `none` for the initial empty string. -/
structure WTable where
  guests : List Guest
  side : Option Side
  category : Option Category
  capacity : Int
  isKnight : Bool
deriving DecidableEq, Repr

/-- A processed group: `GuestGroup` after the classification `map` in
`optimizeSeating` (weighted size, dominants and the knight-request flag). -/
structure PGroup where
  groupId : String
  guests : List Guest
  size : Nat
  dominantSide : Side
  dominantCategory : Category
  isRequestedForKnight : Bool
deriving DecidableEq, Repr

/-! ### Grouping (`groupGuestsByRelationship`) -/

/-- Append a guest to the bucket of `key` in an insertion-ordered
association list, creating the bucket at the end if absent (JS object
insertion semantics for the `groups` record). -/
def insertBucket (acc : List (String × List Guest)) (key : String) (g : Guest) :
    List (String × List Guest) :=
  match acc with
  | [] => [(key, [g])]
  | (k, l) :: rest =>
    if k = key then (k, l ++ [g]) :: rest
    else (k, l) :: insertBucket rest key g

/-- Partition guests by trimmed `groupId`; guests without a truthy `groupId`
(absent or the empty string) become singleton `individual-<id>` buckets,
appended after all grouped buckets, each in input order. -/
def groupGuestsByRelationship (guests : List Guest) : List (String × List Guest) :=
  let grouped := guests.foldl (fun acc g =>
    match g.groupId with
    | some gid => if gid = "" then acc else insertBucket acc (trimStr gid) g
    | none => acc) []
  let ungrouped := guests.filter (fun g => g.groupId = none ∨ g.groupId = some "")
  grouped ++ ungrouped.map (fun g => ("individual-" ++ g.id, [g]))

/-! ### Classifier -/

/-- Weighted side tally: each member contributes `amountOf` to its side. -/
def sideTally (gs : List Guest) (s : Side) : Nat :=
  sumAmt (gs.filter (fun g => g.side = s))

/-- Weighted category tally. -/
def categoryTally (gs : List Guest) (c : Category) : Nat :=
  sumAmt (gs.filter (fun g => g.category = c))

/-- The `reduce((a, b) => a[1] > b[1] ? a : b)` step over tally entries:
the current leader is kept only when strictly greater, so a tie moves the
lead to the later entry. -/
def reduceMax {α : Type} (a : α × Nat) : List (α × Nat) → α × Nat
  | [] => a
  | b :: rest => reduceMax (if a.2 > b.2 then a else b) rest

/-- Dominant side: reduce over `Object.entries(sideCounts)` in declaration
order groom, bride, both. -/
def dominantSideOf (gs : List Guest) : Side :=
  (reduceMax (Side.groom, sideTally gs .groom)
    [(Side.bride, sideTally gs .bride), (Side.both, sideTally gs .both)]).1

/-- Dominant category: reduce over entries in declaration order family,
friend, colleague, other. -/
def dominantCategoryOf (gs : List Guest) : Category :=
  (reduceMax (Category.family, categoryTally gs .family)
    [(Category.friend, categoryTally gs .friend),
     (Category.colleague, categoryTally gs .colleague),
     (Category.other, categoryTally gs .other)]).1

/-- Declaration-order rank of a side candidate. -/
def sideRank : Side → Nat
  | .groom => 0
  | .bride => 1
  | .both => 2

/-- Declaration-order rank of a category candidate. -/
def categoryRank : Category → Nat
  | .family => 0
  | .friend => 1
  | .colleague => 2
  | .other => 3

/-- The classification `map` in `optimizeSeating`: weighted size, dominant
side/category and the knight-request flag (normalized exact match of the
group key against the caller-supplied names). -/
def classifyGroup (targets : List String) (p : String × List Guest) : PGroup :=
  { groupId := p.1
    guests := p.2
    size := sumAmt p.2
    dominantSide := dominantSideOf p.2
    dominantCategory := dominantCategoryOf p.2
    isRequestedForKnight := targets.contains (normalizeName p.1) }

/-! ### Stable sorting (JS `Array.prototype.sort` is stable) -/

/-- Insert before the first element not strictly preferred; stable. -/
def insertSorted {α : Type} (le : α → α → Bool) (x : α) : List α → List α
  | [] => [x]
  | y :: ys => if le x y then x :: y :: ys else y :: insertSorted le x ys

/-- Structural stable insertion sort; computes the same list as any stable
sort with total comparator, hence the same list as JS `sort`. -/
def insertionSort {α : Type} (le : α → α → Bool) : List α → List α
  | [] => []
  | x :: xs => insertSorted le x (insertionSort le xs)

/-! ### Table collection and seating state -/

/-- Read `tableAssignments[tid]` (first, and in practice only, binding). -/
def lookupTable (ts : List (Nat × WTable)) (tid : Nat) : Option WTable :=
  (ts.find? (fun p => p.1 == tid)).map (·.2)

/-- Update the binding of `tid` in place (JS field mutation of the record
value; object key order is unchanged). -/
def updateFirst (ts : List (Nat × WTable)) (tid : Nat) (f : WTable → WTable) :
    List (Nat × WTable) :=
  match ts with
  | [] => []
  | (i, t) :: rest =>
    if i = tid then (i, f t) :: rest else (i, t) :: updateFirst rest tid f

/-- Remove the binding of `tid` (`delete tableAssignments[idB]`). -/
def removeTable (ts : List (Nat × WTable)) (tid : Nat) : List (Nat × WTable) :=
  ts.eraseP (fun p => p.1 == tid)

/-- The optimizer's mutable working set: `tableAssignments`, `tableCounter`
and the per-pass `assignment` writes (the latter are discarded by the final
re-generation but are carried for fidelity). -/
structure SeatState where
  tables : List (Nat × WTable)
  counter : Nat
  assign : List (String × Nat)
deriving Repr

/-- The initial working set. -/
def initState : SeatState :=
  { tables := [], counter := 0, assign := [] }

/-- Push a chunk into table `tid`, recording assignments; if the table was
empty before (its list length after the push equals the chunk length) set
its side and category from the group dominants.  This is the common body of
the knight seat, and of the whole-group seat in the standard pass. -/
def seatLabeled (st : SeatState) (tid : Nat) (dom : Side) (cat : Category)
    (chunk : List Guest) : SeatState :=
  { st with
    tables := updateFirst st.tables tid (fun t =>
      let pushed : WTable := { t with guests := t.guests ++ chunk }
      if pushed.guests.length = chunk.length then
        { pushed with side := some dom, category := some cat }
      else pushed)
    assign := st.assign ++ chunk.map (fun g => (g.id, tid)) }

/-- Push a chunk into table `tid` without touching side or category (the
partial-fill branch of the standard pass does not relabel). -/
def seatPlain (st : SeatState) (tid : Nat) (chunk : List Guest) : SeatState :=
  { st with
    tables := updateFirst st.tables tid (fun t => { t with guests := t.guests ++ chunk })
    assign := st.assign ++ chunk.map (fun g => (g.id, tid)) }

/-! ### Greedy chunk selection -/

/-- The greedy scan `for i in 0..guestsToSeat.length` that pushes every
guest whose amount still fits in the remaining space.  Members that do not
fit are skipped, so the result is an ordered subsequence, not a prefix. -/
def greedyChunkAux (space used : Int) : List Guest → List Guest
  | [] => []
  | g :: rest =>
    if used + (amountOf g : Int) ≤ space then
      g :: greedyChunkAux space (used + (amountOf g : Int)) rest
    else greedyChunkAux space used rest

/-- Chunk selection for a fixed free space (knight tables and the
partial-fill branch): greedy scan plus the `chunk.length === 0` fallback
that force-takes the first guest when it fits on its own. -/
def fitChunk (space : Int) (gs : List Guest) : List Guest :=
  let chunk := greedyChunkAux space 0 gs
  if chunk.isEmpty then
    match gs with
    | [] => []
    | g :: _ => if (amountOf g : Int) ≤ space then [g] else []
  else chunk

/-- The new-table greedy fill: a guest enters when it fits in the declared
capacity, or when it is the very first pick and oversized — in which case
the table capacity is widened to exactly its amount.  Returns the chunk and
the final capacity.  `emptySoFar` mirrors `chunk.length === 0`. -/
def newChunkAux (tc : Int) (used : Int) (emptySoFar : Bool) (cap : Int) :
    List Guest → List Guest × Int
  | [] => ([], cap)
  | g :: rest =>
    let gSize : Int := (amountOf g : Int)
    if used + gSize ≤ tc ∨ (emptySoFar = true ∧ gSize > tc) then
      let cap2 := if emptySoFar = true ∧ gSize > tc then gSize else cap
      let out := newChunkAux tc (used + gSize) false cap2 rest
      (g :: out.1, out.2)
    else newChunkAux tc used emptySoFar cap rest

/-- Remove the chunk from the unseated list: for each chunk element, erase
the first remaining guest with the same id (`findIndex` + `splice`). -/
def removeChunk (gs : List Guest) (chunk : List Guest) : List Guest :=
  chunk.foldl (fun acc c => acc.eraseP (fun x => x.id == c.id)) gs

/-! ### Table search -/

/-- Knight-table scan: over `table-0 … table-(count-1)`, keep the table with
the largest positive free space (strict comparison, so ties keep the
earliest table).  Returns the table id and its free space. -/
def findBestKnight (ts : List (Nat × WTable)) : List Nat → Option (Nat × Int) →
    Option (Nat × Int)
  | [], best => best
  | i :: rest, best =>
    let best2 :=
      match lookupTable ts i with
      | none => best
      | some t =>
        let space := t.capacity - (sumAmt t.guests : Int)
        match best with
        | none => if 0 < space then some (i, space) else none
        | some (_, ms) => if 0 < space ∧ ms < space then some (i, space) else best
    findBestKnight ts rest best2

/-- Side compatibility: empty table, same recorded side, or recorded both. -/
def sideMatch (t : WTable) (dom : Side) : Prop :=
  t.side = some dom ∨ t.side = some Side.both ∨ t.guests = []

instance (t : WTable) (dom : Side) : Decidable (sideMatch t dom) := by
  unfold sideMatch; infer_instance

/-- Whole-group best fit: among the standard tables, the side-compatible
table with space for the whole remaining group and the smallest such space
(strict comparison: ties keep the earliest). -/
def findBestFit (dom : Side) (gsize : Nat) : List (Nat × WTable) →
    Option (Nat × Int) → Option (Nat × Int)
  | [], best => best
  | (i, t) :: rest, best =>
    let space := t.capacity - (sumAmt t.guests : Int)
    let best2 :=
      if (gsize : Int) ≤ space ∧ sideMatch t dom then
        match best with
        | none => some (i, space)
        | some (_, bs) => if space < bs then some (i, space) else best
      else best
    findBestFit dom gsize rest best2

/-- Split target: sort the standard tables by occupancy descending (stable)
and take the first side-compatible one with positive free space. -/
def bestFillTable (stds : List (Nat × WTable)) (dom : Side) : Option (Nat × Int) :=
  let sorted := insertionSort
    (fun a b => sumAmt b.2.guests ≤ sumAmt a.2.guests) stds
  (sorted.find? (fun p =>
    decide (0 < p.2.capacity - (sumAmt p.2.guests : Int) ∧ sideMatch p.2 dom))).map
    (fun p => (p.1, p.2.capacity - (sumAmt p.2.guests : Int)))

/-! ### Knight phase -/

/-- Create the `count` knight tables with ids `table-0 …`. -/
def initKnightTables (kc : KnightConfig) (st : SeatState) : SeatState :=
  (List.range kc.count.toNat).foldl (fun st _ =>
    { st with
      tables := st.tables ++
        [(st.counter,
          { guests := [], side := none, category := none,
            capacity := kc.capacity, isKnight := true })]
      counter := st.counter + 1 }) st

/-- The knight `while (guestsToSeat.length > 0)` loop for one candidate
group.  When no knight table has positive space, the remainder is pushed
back into the standard pool; when a best table exists but the chunk comes
out empty, the loop just breaks and the remainder is dropped (the code
comment promises a push-back that is not there). -/
def knightLoop (count : Nat) (group : PGroup) :
    Nat → SeatState → List Guest → List PGroup → SeatState × List PGroup
  | 0, st, _, pool => (st, pool)
  | fuel + 1, st, gs, pool =>
    if gs.isEmpty then (st, pool)
    else
      match findBestKnight st.tables (List.range count) none with
      | some (tid, maxSpace) =>
        let chunk := fitChunk maxSpace gs
        if chunk.isEmpty then (st, pool)
        else
          knightLoop count group fuel
            (seatLabeled st tid group.dominantSide group.dominantCategory chunk)
            (removeChunk gs chunk) pool
      | none =>
        (st, pool ++ [{ group with guests := gs, size := sumAmt gs }])

/-- Process every knight candidate in order, threading state and pool. -/
def knightPhase (count : Nat) (cands : List PGroup) (st : SeatState)
    (pool : List PGroup) : SeatState × List PGroup :=
  cands.foldl (fun acc group =>
    knightLoop count group (group.guests.length + 1) acc.1 group.guests acc.2)
    (st, pool)

/-! ### Standard phase -/

/-- Open a new standard table and fill it greedily: the branch the code
runs when no existing table can take even a partial chunk
(`!bestPartialTableId`).  The table is created first (at the declared
capacity, side and category from the group), then filled by the
oversized-widening scan; the safety fallback force-picks the first member,
and the infinite-loop guard (`none` result, remainder dropped) is
unreachable because the scan always takes the first member. -/
def stdOpenNew (tc : Int) (group : PGroup) (st : SeatState) (gs : List Guest) :
    SeatState × Option (List Guest) :=
  let tid := st.counter
  let stBase : SeatState :=
    { st with
      tables := st.tables ++
        [(tid, { guests := [], side := some group.dominantSide,
                 category := some group.dominantCategory,
                 capacity := tc, isKnight := false })]
      counter := st.counter + 1 }
  let picked := newChunkAux tc 0 true tc gs
  let forced :=
    if picked.1.isEmpty then
      match gs with
      | [] => picked
      | g :: _ => ([g], max picked.2 (amountOf g : Int))
    else picked
  if forced.1.isEmpty then (stBase, none)
  else
    ({ stBase with
        tables := updateFirst stBase.tables tid (fun t =>
          { t with guests := t.guests ++ forced.1, capacity := forced.2 })
        assign := stBase.assign ++ forced.1.map (fun g => (g.id, tid)) },
     some (removeChunk gs forced.1))

/-- One standard pass over a group: the `while (guestsToSeat.length > 0)`
loop with its four branches — whole-group best fit, new table for a whole
group that fits the standard capacity, partial fill of the fullest
compatible table, and a new greedily filled table via `stdOpenNew`.
`gsize` mirrors the `groupSize` variable (recomputed exactly where the
code recomputes it). -/
def stdLoop (tc : Int) (group : PGroup) :
    Nat → SeatState → List Guest → Nat → SeatState
  | 0, st, _, _ => st
  | fuel + 1, st, gs, gsize =>
    if gs.isEmpty then st
    else
      match findBestFit group.dominantSide gsize
          (st.tables.filter (fun p => !p.2.isKnight)) none with
      | some (tid, _) =>
        seatLabeled st tid group.dominantSide group.dominantCategory gs
      | none =>
        if (gsize : Int) ≤ tc then
          { st with
            tables := st.tables ++
              [(st.counter, { guests := gs, side := some group.dominantSide,
                              category := some group.dominantCategory,
                              capacity := tc, isKnight := false })]
            counter := st.counter + 1
            assign := st.assign ++ gs.map (fun g => (g.id, st.counter)) }
        else
          match bestFillTable (st.tables.filter (fun p => !p.2.isKnight))
              group.dominantSide with
          | some (tid, space) =>
            if (fitChunk space gs).isEmpty then
              match stdOpenNew tc group st gs with
              | (st2, none) => st2
              | (st2, some gs2) => stdLoop tc group fuel st2 gs2 (sumAmt gs2)
            else
              stdLoop tc group fuel
                (seatPlain st tid (fitChunk space gs))
                (removeChunk gs (fitChunk space gs))
                (sumAmt (removeChunk gs (fitChunk space gs)))
          | none =>
            match stdOpenNew tc group st gs with
            | (st2, none) => st2
            | (st2, some gs2) => stdLoop tc group fuel st2 gs2 (sumAmt gs2)

/-- The standard pass over the whole (sorted) pool. -/
def stdPhase (tc : Int) (pool : List PGroup) (st : SeatState) : SeatState :=
  pool.foldl (fun st group =>
    stdLoop tc group (group.guests.length + 1) st group.guests
      (sumAmt group.guests)) st

/-! ### Consolidation -/

/-- Inner scan of the consolidator: find the first later, not yet merged
table `idB` that fits into the anchor (`sizeA + sizeB ≤ capA`), merge its
guests into the anchor, relabel the anchor side `both`, delete `idB`, and
stop (one merge per anchor). -/
def consolidateInner (idA : Nat) (capA : Int) (sizeA : Nat) :
    List Nat → List (Nat × WTable) × List Nat → List (Nat × WTable) × List Nat
  | [], acc => acc
  | idB :: rest, (ts, merged) =>
    if merged.contains idB then consolidateInner idA capA sizeA rest (ts, merged)
    else
      match lookupTable ts idB with
      | some tB =>
        if (sizeA : Int) + (sumAmt tB.guests : Int) ≤ capA then
          (removeTable
            (updateFirst ts idA (fun t =>
              { t with guests := t.guests ++ tB.guests, side := some Side.both }))
            idB,
           merged ++ [idB])
        else consolidateInner idA capA sizeA rest (ts, merged)
      | none => consolidateInner idA capA sizeA rest (ts, merged)

/-- Outer scan of the consolidator over the occupancy-ascending id order:
skip merged-away and full anchors, otherwise try one merge. -/
def consolidateOuter : List Nat → List (Nat × WTable) × List Nat →
    List (Nat × WTable)
  | [], (ts, _) => ts
  | idA :: rest, (ts, merged) =>
    if merged.contains idA then consolidateOuter rest (ts, merged)
    else
      match lookupTable ts idA with
      | some tA =>
        if (sumAmt tA.guests : Int) ≥ tA.capacity then
          consolidateOuter rest (ts, merged)
        else consolidateOuter rest
          (consolidateInner idA tA.capacity (sumAmt tA.guests) rest (ts, merged))
      | none => consolidateOuter rest (ts, merged)

/-- Phase C: merge sparse standard tables (knight tables excluded); the scan
order is occupancy ascending over the pre-consolidation tables. -/
def consolidate (ts : List (Nat × WTable)) : List (Nat × WTable) :=
  let order :=
    (insertionSort (fun a b => sumAmt a.2.guests ≤ sumAmt b.2.guests)
      (ts.filter (fun p => !p.2.isKnight))).map (·.1)
  consolidateOuter order (ts, [])

/-! ### Result assembly -/

/-- The final assignment map, re-generated from the final tables: for each
table in order, each seated guest id is mapped to the table id (later
writes win, as for a JS object). -/
def buildFinalAssign (tables : List (Nat × WTable)) : String → Option Nat :=
  tables.foldl (fun m p =>
    p.2.guests.foldl (fun m g => Function.update m g.id (some p.1)) m)
    (fun _ => none)

/-- The optimizer result: the regenerated assignment and the final tables
(with id, capacity, knight flag, side, category and member list). -/
structure OptimizationResult where
  assignments : String → Option Nat
  tables : List (Nat × WTable)

/-- Grouping plus classification, as run by `optimizeSeating`. -/
def processedGroupsOf (guests : List Guest) (config : OptimizationConfig) :
    List PGroup :=
  (groupGuestsByRelationship guests).map
    (classifyGroup ((config.knightGroupNames.getD []).map normalizeName))

/-- Phase A (knight tables): returns the state after the knight pass and
the standard pool.  Strict mode is entered when at least one group carries
`isRequestedForKnight`; otherwise friend-dominant groups are the candidates
and are removed from the pool. -/
def knightStage (guests : List Guest) (config : OptimizationConfig) :
    SeatState × List PGroup :=
  let kc := config.knightConfig.getD defaultKnight
  let processed := processedGroupsOf guests config
  if kc.enabled = true ∧ 0 < kc.count then
    let st0 := initKnightTables kc initState
    let matched := processed.filter (fun g => g.isRequestedForKnight)
    let selected :=
      if matched.isEmpty then
        (processed.filter (fun g => g.dominantCategory = Category.friend),
         processed.filter (fun g => ¬(g.dominantCategory = Category.friend)))
      else
        (matched, processed.filter (fun g => ¬(g.isRequestedForKnight = true)))
    knightPhase kc.count.toNat
      (insertionSort (fun a b => b.size ≤ a.size) selected.1) st0 selected.2
  else (initState, processed)

/-- Phases A+B: the state after the standard pass (pool sorted descending
by weighted size before seating). -/
def stdStage (guests : List Guest) (config : OptimizationConfig) : SeatState :=
  let r := knightStage guests config
  stdPhase (config.tableCapacity.getD 12)
    (insertionSort (fun a b => b.size ≤ a.size) r.2) r.1

/-- The complete optimizer: grouping, classification, knight pass, standard
pass, consolidation and result assembly. -/
def optimizeSeating (guests : List Guest) (config : OptimizationConfig) :
    OptimizationResult :=
  let finalTables := consolidate (stdStage guests config).tables
  { assignments := buildFinalAssign finalTables, tables := finalTables }

/-- Total seated weight of a result (Σ over tables of Σ member amount). -/
def totalSeated (r : OptimizationResult) : Nat :=
  (r.tables.map (fun p => sumAmt p.2.guests)).sum

/-! ### Basic facts about seat weights -/

/-- The effective seat weight is always at least one (`g.amount || 1`). -/
theorem amountOf_pos (g : Guest) : 1 ≤ amountOf g := by
  rcases hg : g.amount with _ | (_ | n) <;> simp [amountOf, hg]

theorem sumAmt_nil : sumAmt [] = 0 := rfl

theorem sumAmt_cons (g : Guest) (l : List Guest) :
    sumAmt (g :: l) = amountOf g + sumAmt l := by
  simp [sumAmt]

theorem sumAmt_append (l₁ l₂ : List Guest) :
    sumAmt (l₁ ++ l₂) = sumAmt l₁ + sumAmt l₂ := by
  simp [sumAmt]

/-- A nonempty guest list has positive weight. -/
theorem sumAmt_pos (l : List Guest) (h : l ≠ []) : 1 ≤ sumAmt l := by
  match l with
  | [] => exact absurd rfl h
  | g :: rest =>
    have := amountOf_pos g
    rw [sumAmt_cons]
    omega

/-! ### Concrete inputs used by counterexamples and witnesses -/

/-- A lone friend guest whose party of 5 cannot fit the 3-seat knight bank. -/
def knightDropGuest : Guest :=
  { id := "a1", category := .friend, side := .groom,
    groupId := some "crew", amount := some 5 }

/-- Knight bank of one 3-seat table, standard capacity 12. -/
def knightDropConfig : OptimizationConfig :=
  { tableCapacity := some 12, knightConfig := some ⟨true, 1, 3⟩ }

/-- Same shape as `knightDropGuest` under a fresh id for the C2 run. -/
def knightPoolGuest : Guest :=
  { id := "b2", category := .friend, side := .groom,
    groupId := some "band", amount := some 5 }

/-- Knight bank of one 3-seat table for the C2 run. -/
def knightPoolConfig : OptimizationConfig :=
  { tableCapacity := some 12, knightConfig := some ⟨true, 1, 3⟩ }

/-- A friend group whose name matches none of the supplied knight names. -/
def unmatchedNameGuest : Guest :=
  { id := "b1", category := .friend, side := .groom,
    groupId := some "abc", amount := some 1 }

/-- Caller supplies the knight group name "xyz", which matches no group. -/
def unmatchedNameConfig : OptimizationConfig :=
  { tableCapacity := some 12, knightConfig := some ⟨true, 1, 20⟩,
    knightGroupNames := some ["xyz"] }

/-- A lone unit guest for the invalid-configuration run. -/
def loneGuest : Guest :=
  { id := "c1", category := .other, side := .groom, amount := some 1 }

/-- First member of the knight chunk-skip run: party of 5. -/
def skipBigGuest : Guest :=
  { id := "k1", category := .friend, side := .groom,
    groupId := some "crew", amount := some 5 }

/-- Second member of the knight chunk-skip run: party of 2. -/
def skipSmallGuest : Guest :=
  { id := "k2", category := .friend, side := .groom,
    groupId := some "crew", amount := some 2 }

/-- Knight bank of one 3-seat table for the chunk-skip run. -/
def skipConfig : OptimizationConfig :=
  { tableCapacity := some 12, knightConfig := some ⟨true, 1, 3⟩ }

/-- The oversized single guest of spec scenario C. -/
def oversizedGuest : Guest :=
  { id := "d1", category := .family, side := .bride, amount := some 15 }

/-- A groom-side unit guest and a bride-side unit guest: an exact side tie. -/
def tieGroomGuest : Guest :=
  { id := "t1", category := .family, side := .groom }

/-- The bride half of the tie pair. -/
def tieBrideGuest : Guest :=
  { id := "t2", category := .family, side := .bride }

/-! ### C1 -/

/-- C1: conservation fails on the code.  For the single guest `a1` with
amount 5 under a knight bank of one 3-seat table (auto mode selects the
friend group), the knight loop finds a best table with positive space, the
chunk comes out empty because the party does not fit, and the loop breaks
without pushing the remainder back: the guest appears in no output table,
no unassignable remainder is reported (the result carries no such field),
and the seated weight 0 differs from the input weight 5. -/
theorem C1_conservation_violated :
    totalSeated (optimizeSeating [knightDropGuest] knightDropConfig) = 0 ∧
    sumAmt [knightDropGuest] = 5 ∧
    (optimizeSeating [knightDropGuest] knightDropConfig).assignments "a1" = none := by
  decide

/-! ### C2 -/

/-- C2: the knight allocator's no-member-fits exit does not push the
remainder back.  For guest `b2` (amount 5) and a knight bank of one 3-seat
table, the best knight table has space 3 but no member fits; the code
comment promises "remaining go to pool", yet the branch only breaks: the
run ends with no standard table at all and `b2` unassigned, so the
remainder is neither pushed back nor seated by the standard allocator. -/
theorem C2_remainder_dropped :
    ((optimizeSeating [knightPoolGuest] knightPoolConfig).tables.filter
        (fun p => !p.2.isKnight)) = [] ∧
    (optimizeSeating [knightPoolGuest] knightPoolConfig).assignments "b2" = none := by
  decide

/-! ### C3 -/

/-- C3 counterexample: the caller supplied the knight group name "xyz",
which matches no group, yet the friend-dominant group "abc" does not go
untouched to the standard pool — it is seated in knight table 0 (auto mode
was entered although at least one target name was supplied). -/
theorem C3_counterexample :
    (optimizeSeating [unmatchedNameGuest] unmatchedNameConfig).assignments "b1" =
      some 0 ∧
    lookupTable (optimizeSeating [unmatchedNameGuest] unmatchedNameConfig).tables 0 =
      some { guests := [unmatchedNameGuest], side := some Side.groom,
             category := some Category.friend, capacity := 20, isKnight := true } := by
  decide

/-- Classification ignores the supplied names when none of them matches. -/
theorem classifyGroup_no_target (targets : List String) (p : String × List Guest)
    (h : targets.contains (normalizeName p.1) = false) :
    classifyGroup targets p = classifyGroup [] p := by
  have h2 : normalizeName p.1 ∉ targets := by simpa using h
  simp [classifyGroup, h2]

/-- C3 (amended): the candidate-selection mode is decided by whether some
group actually matches the supplied knight group names, not by whether any
name was supplied.  If `knightGroupNames` are supplied but none matches a
group key (after trimming and case folding), the entire run is identical to
a run with no names supplied at all — auto mode, with friend-dominant
groups as knight candidates.  Strict mode applies only when some group's
`isRequestedForKnight` flag is set. -/
theorem C3_mode_decided_by_match (guests : List Guest) (config : OptimizationConfig)
    (h : ∀ p ∈ groupGuestsByRelationship guests,
      ((config.knightGroupNames.getD []).map normalizeName).contains
        (normalizeName p.1) = false) :
    optimizeSeating guests config =
      optimizeSeating guests { config with knightGroupNames := none } := by
  have hp : processedGroupsOf guests config =
      processedGroupsOf guests { config with knightGroupNames := none } := by
    unfold processedGroupsOf
    refine List.map_congr_left (fun p hpmem => ?_)
    simp only
    rw [classifyGroup_no_target _ _ (h p hpmem)]
    rfl
  unfold optimizeSeating stdStage knightStage
  rw [hp]

/-- C3 witness: the amended theorem applied to the concrete unmatched-name
run. -/
theorem C3_witness :
    optimizeSeating [unmatchedNameGuest] unmatchedNameConfig =
      optimizeSeating [unmatchedNameGuest]
        { unmatchedNameConfig with knightGroupNames := none } :=
  C3_mode_decided_by_match [unmatchedNameGuest] unmatchedNameConfig (by decide)

/-! ### C4 -/

/-- C4 counterexample: for the group of one groom-side and one bride-side
unit guest the side tallies tie exactly, yet the classifier does not pick
the earlier-declared candidate groom — `a[1] > b[1] ? a : b` hands an exact
tie to the later entry, so bride wins. -/
theorem C4_counterexample :
    sideTally [tieGroomGuest, tieBrideGuest] Side.groom =
      sideTally [tieGroomGuest, tieBrideGuest] Side.bride ∧
    dominantSideOf [tieGroomGuest, tieBrideGuest] = Side.bride := by
  decide

/-- The dominant side is a weighted-tally maximum, and on an exact tie the
later-declared candidate wins: every candidate declared after the winner
has a strictly smaller tally. -/
theorem dominantSideOf_last_argmax (gs : List Guest) :
    (∀ s, sideTally gs s ≤ sideTally gs (dominantSideOf gs)) ∧
    (∀ s, sideRank (dominantSideOf gs) < sideRank s →
      sideTally gs s < sideTally gs (dominantSideOf gs)) := by
  simp only [dominantSideOf, reduceMax, gt_iff_lt]
  split_ifs <;>
    constructor <;>
      · intro s
        cases s <;> simp_all [sideRank] <;> omega

/-- The dominant category is a weighted-tally maximum, and on an exact tie
the later-declared candidate wins. -/
theorem dominantCategoryOf_last_argmax (gs : List Guest) :
    (∀ c, categoryTally gs c ≤ categoryTally gs (dominantCategoryOf gs)) ∧
    (∀ c, categoryRank (dominantCategoryOf gs) < categoryRank c →
      categoryTally gs c < categoryTally gs (dominantCategoryOf gs)) := by
  simp only [dominantCategoryOf, reduceMax, gt_iff_lt]
  split_ifs <;>
    constructor <;>
      · intro c
        cases c <;> simp_all [categoryRank] <;> omega

/-- C4 (amended): the dominant side and category are the weighted-tally
maxima, but ties are resolved in favor of the later-declared candidate:
iterating the fixed orders groom, bride, both and family, friend,
colleague, other, the current leader is kept only when its tally is
strictly greater, so on an exact tie the later-declared candidate wins —
equivalently, every candidate declared after the winner has a strictly
smaller tally, while earlier candidates may tie it. -/
theorem C4_tiebreak_later_wins (gs : List Guest) :
    ((∀ s, sideTally gs s ≤ sideTally gs (dominantSideOf gs)) ∧
     (∀ s, sideRank (dominantSideOf gs) < sideRank s →
       sideTally gs s < sideTally gs (dominantSideOf gs))) ∧
    ((∀ c, categoryTally gs c ≤ categoryTally gs (dominantCategoryOf gs)) ∧
     (∀ c, categoryRank (dominantCategoryOf gs) < categoryRank c →
       categoryTally gs c < categoryTally gs (dominantCategoryOf gs))) :=
  ⟨dominantSideOf_last_argmax gs, dominantCategoryOf_last_argmax gs⟩

/-- C4 witness: the amended theorem applied at the concrete tie pair, with
the strict-suffix hypothesis discharged at candidate both. -/
theorem C4_witness :
    sideTally [tieGroomGuest, tieBrideGuest] Side.both <
      sideTally [tieGroomGuest, tieBrideGuest]
        (dominantSideOf [tieGroomGuest, tieBrideGuest]) :=
  (C4_tiebreak_later_wins [tieGroomGuest, tieBrideGuest]).1.2 Side.both (by decide)

/-! ### C5 -/

/-- C5 counterexample: a run with non-positive `tableCapacity` 0 is not
rejected — no configuration check exists — and an assignment is produced:
the lone guest is seated at table 0. -/
theorem C5_counterexample :
    (optimizeSeating [loneGuest] { tableCapacity := some 0 }).assignments "c1" =
      some 0 ∧
    (optimizeSeating [loneGuest] { tableCapacity := some 0 }).tables ≠ [] := by
  decide

/-- C5 (amended): `optimizeSeating` performs no configuration validation.
A run with non-positive `tableCapacity` is not rejected and no error is
reported — the result type has no error case at all — and seating proceeds
normally: a lone guest is seated at a fresh table 0 whose capacity is
widened to exactly the guest's amount (the oversized-guest rule fires
because every positive amount exceeds the non-positive capacity). -/
theorem C5_no_validation (g : Guest) (tc : Int) (htc : tc ≤ 0)
    (hgid : g.groupId = none) :
    (optimizeSeating [g] { tableCapacity := some tc }).tables =
      [(0, { guests := [g], side := some (dominantSideOf [g]),
             category := some (dominantCategoryOf [g]),
             capacity := (amountOf g : Int), isKnight := false })] ∧
    (optimizeSeating [g] { tableCapacity := some tc }).assignments g.id = some 0 := by
  have ha : 1 ≤ amountOf g := amountOf_pos g
  have haI : (1 : Int) ≤ (amountOf g : Int) := by exact_mod_cast ha
  have hgrp : groupGuestsByRelationship [g] = [("individual-" ++ g.id, [g])] := by
    simp [groupGuestsByRelationship, hgid]
  have hproc : processedGroupsOf [g] { tableCapacity := some tc } =
      [classifyGroup [] ("individual-" ++ g.id, [g])] := by
    simp [processedGroupsOf, hgrp]
  have hks : knightStage [g] { tableCapacity := some tc } =
      (initState, [classifyGroup [] ("individual-" ++ g.id, [g])]) := by
    rw [knightStage, hproc]
    simp [defaultKnight]
  have hle : ¬((sumAmt [g] : Int) ≤ tc) := by
    simp only [sumAmt, List.map, List.sum_cons, List.sum_nil]
    omega
  have hcond : ¬((0:Int) + (amountOf g : Int) ≤ tc) := by omega
  have hgt : tc < (amountOf g : Int) := by omega
  have hchunk : newChunkAux tc 0 true tc [g] = ([g], (amountOf g : Int)) := by
    simp [newChunkAux, hcond, hgt]
  have hrm : removeChunk [g] [g] = [] := by
    simp [removeChunk, List.eraseP_cons]
  have hloop : stdLoop tc (classifyGroup [] ("individual-" ++ g.id, [g])) 2
      initState [g] (sumAmt [g]) =
      { tables := [(0, { guests := [g],
                         side := some (dominantSideOf [g]),
                         category := some (dominantCategoryOf [g]),
                         capacity := (amountOf g : Int), isKnight := false })],
        counter := 1, assign := [(g.id, 0)] } := by
    rw [stdLoop]
    simp only [List.isEmpty_cons, Bool.false_eq_true, if_false, initState,
      List.filter_nil, findBestFit, hle, if_false, bestFillTable, insertionSort,
      List.find?_nil, Option.map_none, hchunk, classifyGroup]
    simp [stdLoop, stdOpenNew, updateFirst, hchunk, hrm, classifyGroup]
  have hss : stdStage [g] { tableCapacity := some tc } =
      { tables := [(0, { guests := [g],
                         side := some (dominantSideOf [g]),
                         category := some (dominantCategoryOf [g]),
                         capacity := (amountOf g : Int), isKnight := false })],
        counter := 1, assign := [(g.id, 0)] } := by
    rw [stdStage, hks]
    simp only [insertionSort, insertSorted, stdPhase, List.foldl_cons, List.foldl_nil]
    simpa [classifyGroup] using hloop
  have hcons : consolidate
      [(0, { guests := [g],
             side := some (dominantSideOf [g]),
             category := some (dominantCategoryOf [g]),
             capacity := (amountOf g : Int), isKnight := false })] =
      [(0, { guests := [g],
             side := some (dominantSideOf [g]),
             category := some (dominantCategoryOf [g]),
             capacity := (amountOf g : Int), isKnight := false })] := by
    simp [consolidate, insertionSort, insertSorted, consolidateOuter, lookupTable,
      sumAmt]
  constructor
  · show (consolidate (stdStage [g] { tableCapacity := some tc }).tables) = _
    rw [hss, hcons]
  · show buildFinalAssign
      (consolidate (stdStage [g] { tableCapacity := some tc }).tables) g.id = some 0
    rw [hss, hcons]
    simp [buildFinalAssign]

/-- C5 witness: the amended theorem applied at a concrete guest and the
concrete negative capacity -3. -/
theorem C5_witness :
    (optimizeSeating [loneGuest] { tableCapacity := some (-3) }).tables =
      [(0, { guests := [loneGuest], side := some (dominantSideOf [loneGuest]),
             category := some (dominantCategoryOf [loneGuest]),
             capacity := (amountOf loneGuest : Int), isKnight := false })] ∧
    (optimizeSeating [loneGuest] { tableCapacity := some (-3) }).assignments
      loneGuest.id = some 0 :=
  C5_no_validation loneGuest (-3) (by omega) rfl

/-! ### C6 -/

/-- The greedy scan returns an ordered subsequence of its input. -/
theorem greedyChunkAux_sublist (space : Int) (gs : List Guest) : ∀ (used : Int),
    List.Sublist (greedyChunkAux space used gs) gs := by
  induction gs with
  | nil => intro used; simp [greedyChunkAux]
  | cons g rest ih =>
    intro used
    rw [greedyChunkAux]
    split_ifs with h
    · exact List.Sublist.cons₂ g (ih _)
    · exact List.Sublist.cons g (ih used)

/-- When the greedy scan picks anyone, the picked weight fits the space
left above `used`. -/
theorem greedyChunkAux_sum (space : Int) (gs : List Guest) : ∀ (used : Int),
    greedyChunkAux space used gs ≠ [] →
    used + (sumAmt (greedyChunkAux space used gs) : Int) ≤ space := by
  induction gs with
  | nil => intro used h; simp [greedyChunkAux] at h
  | cons g rest ih =>
    intro used h
    rw [greedyChunkAux] at h ⊢
    split_ifs at h ⊢ with hfit
    · by_cases h2 : greedyChunkAux space (used + (amountOf g : Int)) rest = []
      · rw [h2, sumAmt_cons, sumAmt_nil]
        push_cast
        omega
      · have := ih (used + (amountOf g : Int)) h2
        rw [sumAmt_cons]
        push_cast
        push_cast at this
        omega
    · exact ih used h

/-- Greedy maximality: a scanned member left out of the chunk does not fit
even after the whole chunk has been taken. -/
theorem greedyChunkAux_maximal (space : Int) (gs : List Guest) : ∀ (used : Int),
    ∀ g ∈ gs, g ∉ greedyChunkAux space used gs →
    space < used + (sumAmt (greedyChunkAux space used gs) : Int) + (amountOf g : Int) := by
  induction gs with
  | nil => simp
  | cons x rest ih =>
    intro used g hg hnot
    rw [greedyChunkAux] at hnot ⊢
    split_ifs at hnot ⊢ with hfit
    · rcases List.mem_cons.1 hg with rfl | hgr
      · exact absurd (List.mem_cons_self _ _) hnot
      · have hnot2 : g ∉ greedyChunkAux space (used + (amountOf x : Int)) rest :=
          fun hc => hnot (List.mem_cons_of_mem _ hc)
        have := ih (used + (amountOf x : Int)) g hgr hnot2
        rw [sumAmt_cons]
        push_cast
        push_cast at this
        omega
    · rcases List.mem_cons.1 hg with rfl | hgr
      · have hs : (0:Int) ≤ (sumAmt (greedyChunkAux space used rest) : Int) := by
          positivity
        omega
      · exact ih used g hgr hnot

/-- The `chunk.length === 0` fallback never fires: if the greedy scan took
nobody then the first member already failed the same test the fallback
re-runs, so the chunk is exactly the greedy scan. -/
theorem fitChunk_eq_greedy (space : Int) (gs : List Guest) :
    fitChunk space gs = greedyChunkAux space 0 gs := by
  unfold fitChunk
  match gs with
  | [] => simp [greedyChunkAux]
  | g :: rest =>
    by_cases hh : greedyChunkAux space 0 (g :: rest) = []
    · have hng : ¬((0:Int) + (amountOf g : Int) ≤ space) := by
        intro hle
        rw [greedyChunkAux, if_pos hle] at hh
        simp at hh
      have hng2 : ¬((amountOf g : Int) ≤ space) := by omega
      simp [hh, hng2]
    · simp [hh]

/-- C6 counterexample: a run in which the first unseated member's amount
exceeds the available knight space, yet a member is still seated in that
step.  The friend group [k1 (amount 5), k2 (amount 2)] meets a 3-seat
knight table: 5 exceeds the space 3, but the greedy scan skips k1 and
seats k2 — a later member is seated while an earlier unseated member stays
outside the chunk (k1 moreover ends the run unassigned). -/
theorem C6_counterexample :
    (3:Int) < (amountOf skipBigGuest : Int) ∧
    (optimizeSeating [skipBigGuest, skipSmallGuest] skipConfig).assignments "k2" =
      some 0 ∧
    (optimizeSeating [skipBigGuest, skipSmallGuest] skipConfig).assignments "k1" =
      none := by
  decide

/-- C6 (amended): the chunk seated in a split step is the greedily selected
ordered subsequence — not a maximal prefix — of the still-unseated members:
scanning the members in order, each is taken exactly when it fits the space
remaining after the members already taken.  The chunk is a subsequence of
the remaining members, its weight fits the available space whenever it is
nonempty, and it is greedily maximal: any scanned member left out would
overflow the space even after the whole chunk.  A later member may
therefore be seated while an earlier oversized member remains unseated. -/
theorem C6_chunk_greedy_subsequence (space : Int) (gs : List Guest) :
    List.Sublist (fitChunk space gs) gs ∧
    (fitChunk space gs ≠ [] → (sumAmt (fitChunk space gs) : Int) ≤ space) ∧
    (∀ g ∈ gs, g ∉ fitChunk space gs →
      space < (sumAmt (fitChunk space gs) : Int) + (amountOf g : Int)) := by
  rw [fitChunk_eq_greedy]
  refine ⟨greedyChunkAux_sublist space gs 0, fun h => ?_, fun g hg hn => ?_⟩
  · have := greedyChunkAux_sum space gs 0 h
    omega
  · have := greedyChunkAux_maximal space gs 0 g hg hn
    omega

/-- C6 witness: the amended theorem applied at space 3 and the concrete
skip pair, maximality discharged at the skipped oversized member. -/
theorem C6_witness :
    (3:Int) < (sumAmt (fitChunk 3 [skipBigGuest, skipSmallGuest]) : Int) +
      (amountOf skipBigGuest : Int) :=
  (C6_chunk_greedy_subsequence 3 [skipBigGuest, skipSmallGuest]).2.2 skipBigGuest
    (by decide) (by decide)

/-! ### Table-level invariants (towards C7, C8, C10) -/

/-- Occupancy respects the declared capacity. -/
def occOK (p : Nat × WTable) : Prop :=
  (sumAmt p.2.guests : Int) ≤ p.2.capacity

/-- Capacity shape: a table is a knight table at the knight capacity, a
standard table at the standard capacity, or a standard table widened for a
single oversized guest seated alone, at exactly that guest's amount. -/
def shapeOK (kcap tc : Int) (p : Nat × WTable) : Prop :=
  (p.2.isKnight = true ∧ p.2.capacity = kcap) ∨
  (p.2.isKnight = false ∧
    (p.2.capacity = tc ∨
      ∃ g, p.2.guests = [g] ∧ tc < (amountOf g : Int) ∧
        p.2.capacity = (amountOf g : Int)))

/-- Collection invariant: distinct table ids, capacity shapes, and (for a
non-negative knight capacity) occupancy within capacity. -/
def TblInv (kcap tc : Int) (ts : List (Nat × WTable)) : Prop :=
  (ts.map (·.1)).Nodup ∧ (∀ p ∈ ts, shapeOK kcap tc p) ∧
  (0 ≤ kcap → ∀ p ∈ ts, occOK p)

/-- State invariant: the collection invariant plus counter freshness. -/
def StInv (kcap tc : Int) (st : SeatState) : Prop :=
  TblInv kcap tc st.tables ∧ ∀ p ∈ st.tables, p.1 < st.counter

/-- Stable insertion is a permutation of consing. -/
theorem insertSorted_perm {α : Type} (le : α → α → Bool) (x : α) (l : List α) :
    List.Perm (insertSorted le x l) (x :: l) := by
  induction l with
  | nil => simp [insertSorted]
  | cons y ys ih =>
    rw [insertSorted]
    split_ifs
    · exact List.Perm.refl _
    · exact List.Perm.trans (List.Perm.cons y ih) (List.Perm.swap x y ys)

/-- Insertion sort permutes its input. -/
theorem insertionSort_perm {α : Type} (le : α → α → Bool) (l : List α) :
    List.Perm (insertionSort le l) l := by
  induction l with
  | nil => simp [insertionSort]
  | cons x xs ih =>
    rw [insertionSort]
    exact List.Perm.trans (insertSorted_perm le x _) (List.Perm.cons x ih)

/-- A successful table lookup is a membership. -/
theorem lookupTable_mem {ts : List (Nat × WTable)} {tid : Nat} {t : WTable}
    (h : lookupTable ts tid = some t) : (tid, t) ∈ ts := by
  unfold lookupTable at h
  match hf : ts.find? (fun p => p.1 == tid) with
  | none => rw [hf] at h; cases h
  | some p =>
    cases p with
    | mk i t2 =>
      rw [hf] at h
      have hm := List.mem_of_find?_eq_some hf
      have hp := List.find?_some hf
      simp at h hp
      subst hp
      subst h
      exact hm

/-- With distinct keys, a membership determines the lookup. -/
theorem lookup_eq_of_mem_nodup {ts : List (Nat × WTable)} {tid : Nat} {t : WTable}
    (hnd : (ts.map (·.1)).Nodup) (hm : (tid, t) ∈ ts) :
    lookupTable ts tid = some t := by
  induction ts with
  | nil => cases hm
  | cons p rest ih =>
    rw [List.map_cons] at hnd
    rcases List.mem_cons.1 hm with heq | hmem
    · subst heq
      simp [lookupTable, List.find?]
    · have hk : tid ∈ rest.map (·.1) := List.mem_map_of_mem _ hmem
      have hne : p.1 ≠ tid := fun hc => (List.nodup_cons.1 hnd).1 (hc ▸ hk)
      have hrest := ih (List.nodup_cons.1 hnd).2 hmem
      have hbe : (p.1 == tid) = false := by simpa using hne
      simp only [lookupTable, List.find?, hbe]
      simpa only [lookupTable] using hrest

/-- Updating one key leaves the key sequence unchanged. -/
theorem updateFirst_keys (ts : List (Nat × WTable)) (tid : Nat) (f : WTable → WTable) :
    (updateFirst ts tid f).map (·.1) = ts.map (·.1) := by
  induction ts with
  | nil => rfl
  | cons p rest ih =>
    cases p with
    | mk i t =>
      rw [updateFirst]
      split_ifs with h
      · simp
      · simpa using ih

/-- Every entry of an update is an original entry or the updated first
binding of the key. -/
theorem updateFirst_mem {ts : List (Nat × WTable)} {tid : Nat} {f : WTable → WTable}
    {p : Nat × WTable} (h : p ∈ updateFirst ts tid f) :
    p ∈ ts ∨ ∃ t, lookupTable ts tid = some t ∧ p = (tid, f t) := by
  induction ts with
  | nil => cases h
  | cons q rest ih =>
    cases q with
    | mk i t =>
      rw [updateFirst] at h
      split_ifs at h with hi
      · rcases List.mem_cons.1 h with heq | hmem
        · subst hi
          exact Or.inr ⟨t, by simp [lookupTable, List.find?], heq⟩
        · exact Or.inl (List.mem_cons_of_mem _ hmem)
      · rcases List.mem_cons.1 h with heq | hmem
        · exact Or.inl (heq ▸ List.mem_cons_self _ _)
        · rcases ih hmem with hin | ⟨t2, hlk, hpe⟩
          · exact Or.inl (List.mem_cons_of_mem _ hin)
          · refine Or.inr ⟨t2, ?_, hpe⟩
            have hbe : (i == tid) = false := by simpa using hi
            simp only [lookupTable, List.find?, hbe]
            simpa only [lookupTable] using hlk

/-- The knight scan only ever returns a table of the collection together
with its positive free space (unless the seed already was the answer). -/
theorem findBestKnight_spec (ts : List (Nat × WTable)) (l : List Nat) :
    ∀ (best : Option (Nat × Int)) (tid : Nat) (sp : Int),
    findBestKnight ts l best = some (tid, sp) →
    (∃ t, lookupTable ts tid = some t ∧
      sp = t.capacity - (sumAmt t.guests : Int) ∧ 0 < sp) ∨ best = some (tid, sp) := by
  induction l with
  | nil =>
    intro best tid sp h
    exact Or.inr h
  | cons i rest ih =>
    intro best tid sp h
    rw [findBestKnight] at h
    rcases ih _ tid sp h with hex | hb
    · exact Or.inl hex
    · match hlk : lookupTable ts i with
      | none =>
        rw [hlk] at hb
        exact Or.inr hb
      | some t =>
        rw [hlk] at hb
        match best with
        | none =>
          dsimp only at hb
          split_ifs at hb with hsp
          rcases hb with ⟨rfl, rfl⟩
          exact Or.inl ⟨t, hlk, rfl, hsp⟩
        | some (j, ms) =>
          dsimp only at hb
          split_ifs at hb with hsp
          · rcases hb with ⟨rfl, rfl⟩
            exact Or.inl ⟨t, hlk, rfl, hsp.1⟩
          · exact Or.inr hb

/-- The whole-group scan only ever returns a member table with enough
side-compatible space for the whole group. -/
theorem findBestFit_spec (dom : Side) (gsize : Nat) (l : List (Nat × WTable)) :
    ∀ (best : Option (Nat × Int)) (tid : Nat) (sp : Int),
    findBestFit dom gsize l best = some (tid, sp) →
    (∃ t, (tid, t) ∈ l ∧ sp = t.capacity - (sumAmt t.guests : Int) ∧
      (gsize : Int) ≤ sp) ∨ best = some (tid, sp) := by
  induction l with
  | nil =>
    intro best tid sp h
    exact Or.inr h
  | cons p rest ih =>
    cases p with
    | mk i t =>
      intro best tid sp h
      rw [findBestFit.eq_def] at h
      dsimp only at h
      rcases ih _ tid sp h with ⟨t2, hm, hrest⟩ | hb
      · exact Or.inl ⟨t2, List.mem_cons_of_mem _ hm, hrest⟩
      · split_ifs at hb with hcond
        · match best with
          | none =>
            rcases hb with ⟨rfl, rfl⟩
            exact Or.inl ⟨t, List.mem_cons_self _ _, rfl, hcond.1⟩
          | some (j, bs) =>
            dsimp only at hb
            split_ifs at hb with hlt
            · rcases hb with ⟨rfl, rfl⟩
              exact Or.inl ⟨t, List.mem_cons_self _ _, rfl, hcond.1⟩
            · exact Or.inr hb
        · exact Or.inr hb

/-- The split-target scan returns a member standard table with positive
free space, reported exactly. -/
theorem bestFillTable_spec (stds : List (Nat × WTable)) (dom : Side)
    (tid : Nat) (sp : Int) (h : bestFillTable stds dom = some (tid, sp)) :
    ∃ t, (tid, t) ∈ stds ∧ sp = t.capacity - (sumAmt t.guests : Int) ∧ 0 < sp := by
  have h2 : Option.map (fun p => (p.1, p.2.capacity - (sumAmt p.2.guests : Int)))
      ((insertionSort (fun a b => sumAmt b.2.guests ≤ sumAmt a.2.guests)
        stds).find? (fun p =>
          decide (0 < p.2.capacity - (sumAmt p.2.guests : Int) ∧
            sideMatch p.2 dom))) = some (tid, sp) := h
  clear h
  match hf : (insertionSort (fun a b => sumAmt b.2.guests ≤ sumAmt a.2.guests)
      stds).find? (fun p =>
        decide (0 < p.2.capacity - (sumAmt p.2.guests : Int) ∧ sideMatch p.2 dom)) with
  | none => rw [hf] at h2; cases h2
  | some p =>
    cases p with
    | mk i t =>
      rw [hf] at h2
      have hm := List.mem_of_find?_eq_some hf
      have hp := List.find?_some hf
      have h3 : (i, t.capacity - (sumAmt t.guests : Int)) = (tid, sp) := by
        simpa using h2
      cases h3
      have hmem : (tid, t) ∈ stds :=
        (insertionSort_perm _ stds).mem_iff.1 hm
      have hp2 : 0 < t.capacity - (sumAmt t.guests : Int) := by
        simpa using (of_decide_eq_true hp).1
      exact ⟨t, hmem, rfl, hp2⟩

/-- Appending a fresh entry at the counter preserves the state invariant,
given the entry's shape and (conditional) occupancy. -/
theorem StInv_append_fresh {kcap tc : Int} {st : SeatState} {t : WTable}
    (h : StInv kcap tc st)
    (hshape : shapeOK kcap tc (st.counter, t))
    (hocc : 0 ≤ kcap → occOK (st.counter, t)) (a : List (String × Nat)) :
    StInv kcap tc { tables := st.tables ++ [(st.counter, t)],
                    counter := st.counter + 1, assign := a } := by
  obtain ⟨⟨hnd, hshapes, hoccs⟩, hctr⟩ := h
  refine ⟨⟨?_, ?_, ?_⟩, ?_⟩
  · rw [List.map_append]
    refine List.Nodup.append hnd (by simp) ?_
    intro x hx hy
    simp at hy
    subst hy
    rcases List.mem_map.1 hx with ⟨p, hp, hpx⟩
    exact absurd (hpx ▸ hctr p hp) (lt_irrefl _)
  · intro p hp
    rcases List.mem_append.1 hp with hin | hnew
    · exact hshapes p hin
    · simp at hnew
      subst hnew
      exact hshape
  · intro hk p hp
    rcases List.mem_append.1 hp with hin | hnew
    · exact hoccs hk p hin
    · simp at hnew
      subst hnew
      exact hocc hk
  · intro p hp
    rcases List.mem_append.1 hp with hin | hnew
    · exact Nat.lt_succ_of_lt (hctr p hin)
    · simp at hnew
      subst hnew
      exact Nat.lt_succ_self _

/-- Seating a chunk into an existing table found with positive free space
and enough room preserves the collection invariant.  The update appends to
the guest list and keeps capacity and kind; a widened table can never be
the target because its free space is zero. -/
theorem TblInv_seat {kcap tc : Int} {ts : List (Nat × WTable)} {tid : Nat}
    {f : WTable → WTable} {chunk : List Guest}
    (hinv : TblInv kcap tc ts)
    (hf : ∀ t, (f t).guests = t.guests ++ chunk ∧ (f t).capacity = t.capacity ∧
      (f t).isKnight = t.isKnight)
    (hroom : ∀ t, lookupTable ts tid = some t →
      0 < t.capacity - (sumAmt t.guests : Int) ∧
      (sumAmt t.guests : Int) + (sumAmt chunk : Int) ≤ t.capacity) :
    TblInv kcap tc (updateFirst ts tid f) := by
  obtain ⟨hnd, hshapes, hoccs⟩ := hinv
  refine ⟨by rw [updateFirst_keys]; exact hnd, ?_, ?_⟩
  · intro p hp
    rcases updateFirst_mem hp with hin | ⟨t, hlk, rfl⟩
    · exact hshapes p hin
    · have hsh := hshapes _ (lookupTable_mem hlk)
      have hr := (hroom t hlk).1
      rcases hsh with ⟨hk, hc⟩ | ⟨hk, hc | ⟨g, hg, hgt, hcap⟩⟩
      · exact Or.inl ⟨(hf t).2.2 ▸ hk, (hf t).2.1 ▸ hc⟩
      · exact Or.inr ⟨(hf t).2.2 ▸ hk, Or.inl ((hf t).2.1 ▸ hc)⟩
      · exfalso
        rw [hg, hcap] at hr
        simp [sumAmt] at hr
  · intro hk p hp
    rcases updateFirst_mem hp with hin | ⟨t, hlk, rfl⟩
    · exact hoccs hk p hin
    · have hr := (hroom t hlk).2
      unfold occOK
      simp only [(hf t).2.1, (hf t).1, sumAmt_append]
      push_cast
      push_cast at hr
      omega

/-- With the first pick already made, the new-table fill never changes the
capacity again. -/
theorem newChunkAux_false_cap (tc cap : Int) (gs : List Guest) : ∀ (used : Int),
    (newChunkAux tc used false cap gs).2 = cap := by
  induction gs with
  | nil => intro used; rfl
  | cons g rest ih =>
    intro used
    rw [newChunkAux]
    simp only [Bool.false_eq_true, false_and, or_false, if_false]
    split_ifs with h
    · exact ih _
    · exact ih used

/-- With the first pick already made, everyone further picked fits within
the declared standard capacity. -/
theorem newChunkAux_false_sum (tc cap : Int) (gs : List Guest) : ∀ (used : Int),
    (newChunkAux tc used false cap gs).1 ≠ [] →
    used + (sumAmt (newChunkAux tc used false cap gs).1 : Int) ≤ tc := by
  induction gs with
  | nil => intro used h; simp [newChunkAux] at h
  | cons g rest ih =>
    intro used h
    rw [newChunkAux] at h ⊢
    simp only [Bool.false_eq_true, false_and, or_false, if_false] at h ⊢
    split_ifs at h ⊢ with hfit
    · by_cases h2 : (newChunkAux tc (used + (amountOf g : Int)) false cap rest).1 = []
      · simp only [h2, sumAmt_cons, sumAmt_nil]
        push_cast
        omega
      · have := ih (used + (amountOf g : Int)) h2
        simp only [sumAmt_cons]
        push_cast
        push_cast at this
        omega
    · exact ih used h

/-- Once the running weight exceeds the declared standard capacity, the
fill picks nobody else. -/
theorem newChunkAux_false_nil (tc cap : Int) (gs : List Guest) : ∀ (used : Int),
    tc < used → newChunkAux tc used false cap gs = ([], cap) := by
  induction gs with
  | nil => intro used _; rfl
  | cons g rest ih =>
    intro used hlt
    rw [newChunkAux]
    simp only [Bool.false_eq_true, false_and, or_false, if_false]
    have ha := amountOf_pos g
    have : ¬(used + (amountOf g : Int) ≤ tc) := by
      have : (1:Int) ≤ (amountOf g : Int) := by exact_mod_cast ha
      omega
    rw [if_neg this]
    exact ih used hlt

/-- One unfolding step of the new-table fill, with the let bindings
flattened. -/
theorem newChunkAux_cons (tc cap : Int) (e : Bool) (used : Int) (g : Guest)
    (rest : List Guest) :
    newChunkAux tc used e cap (g :: rest) =
      if used + (amountOf g : Int) ≤ tc ∨ (e = true ∧ (amountOf g : Int) > tc) then
        (g :: (newChunkAux tc (used + (amountOf g : Int)) false
            (if e = true ∧ (amountOf g : Int) > tc then (amountOf g : Int) else cap)
            rest).1,
         (newChunkAux tc (used + (amountOf g : Int)) false
            (if e = true ∧ (amountOf g : Int) > tc then (amountOf g : Int) else cap)
            rest).2)
      else newChunkAux tc used e cap rest := rfl

/-- The new-table fill picks a chunk of one of two shapes: a chunk that
fits the standard capacity with the capacity untouched, or — when the very
first candidate is oversized — exactly that single guest with the capacity
widened to its amount. -/
theorem newChunk_shape (tc : Int) (g : Guest) (rest : List Guest) :
    ((newChunkAux tc 0 true tc (g :: rest)).2 = tc ∧
      (sumAmt (newChunkAux tc 0 true tc (g :: rest)).1 : Int) ≤ tc) ∨
    (∃ g2, (newChunkAux tc 0 true tc (g :: rest)).1 = [g2] ∧
      tc < (amountOf g2 : Int) ∧
      (newChunkAux tc 0 true tc (g :: rest)).2 = (amountOf g2 : Int)) := by
  have ha := amountOf_pos g
  have haI : (1:Int) ≤ (amountOf g : Int) := by exact_mod_cast ha
  rw [newChunkAux_cons]
  split_ifs with hcond hwide
  · right
    rw [newChunkAux_false_nil tc _ rest _ (by omega)]
    exact ⟨g, rfl, hwide.2, rfl⟩
  · left
    have hfit : (0:Int) + (amountOf g : Int) ≤ tc := by
      rcases hcond with h | h
      · exact h
      · exact absurd h hwide
    dsimp only
    constructor
    · exact newChunkAux_false_cap tc tc rest _
    · by_cases h2 : (newChunkAux tc (0 + (amountOf g : Int)) false tc rest).1 = []
      · simp only [h2, sumAmt_cons, sumAmt_nil]
        push_cast
        omega
      · have := newChunkAux_false_sum tc tc rest _ h2
        simp only [sumAmt_cons]
        push_cast
        push_cast at this
        omega
  · exfalso
    by_cases h : (0:Int) + (amountOf g : Int) ≤ tc
    · exact hcond (Or.inl h)
    · exact hcond (Or.inr ⟨rfl, by omega⟩)

/-- The new-table fill always takes the first candidate. -/
theorem newChunk_ne_nil (tc : Int) (g : Guest) (rest : List Guest) :
    (newChunkAux tc 0 true tc (g :: rest)).1 ≠ [] := by
  rw [newChunkAux_cons]
  split_ifs with h1 h2
  · simp
  · simp
  · exfalso
    by_cases h : (0:Int) + (amountOf g : Int) ≤ tc
    · exact h1 (Or.inl h)
    · exact h1 (Or.inr ⟨rfl, by omega⟩)

/-- The new-table fill picks an ordered subsequence of the candidates. -/
theorem newChunkAux_sublist (tc : Int) (gs : List Guest) :
    ∀ (used : Int) (e : Bool) (cap : Int),
    List.Sublist (newChunkAux tc used e cap gs).1 gs := by
  induction gs with
  | nil => intro used e cap; simp [newChunkAux]
  | cons g rest ih =>
    intro used e cap
    rw [newChunkAux_cons]
    split_ifs with h1 h2
    · exact List.Sublist.cons₂ g (ih _ _ _)
    · exact List.Sublist.cons₂ g (ih _ _ _)
    · exact List.Sublist.cons g (ih _ _ _)

/-- Updating a freshly appended key rewrites exactly that entry. -/
theorem updateFirst_append_fresh (ts : List (Nat × WTable)) (tid : Nat)
    (t : WTable) (f : WTable → WTable) (h : ∀ p ∈ ts, p.1 ≠ tid) :
    updateFirst (ts ++ [(tid, t)]) tid f = ts ++ [(tid, f t)] := by
  induction ts with
  | nil => simp [updateFirst]
  | cons p rest ih =>
    cases p with
    | mk i t2 =>
      rw [List.cons_append, updateFirst,
        if_neg (h (i, t2) (List.mem_cons_self _ _)), List.cons_append]
      rw [ih (fun q hq => h q (List.mem_cons_of_mem _ hq))]

/-- A nonempty selected chunk fits the offered space. -/
theorem fitChunk_sum {space : Int} {gs : List Guest} (h : fitChunk space gs ≠ []) :
    (sumAmt (fitChunk space gs) : Int) ≤ space := by
  rw [fitChunk_eq_greedy] at h ⊢
  have := greedyChunkAux_sum space gs 0 h
  omega

/-- The selected chunk is an ordered subsequence of the unseated members. -/
theorem fitChunk_sublist (space : Int) (gs : List Guest) :
    List.Sublist (fitChunk space gs) gs := by
  rw [fitChunk_eq_greedy]
  exact greedyChunkAux_sublist space gs 0

/-- Labeled seating preserves the state invariant when the target table was
found with positive space and room for the chunk. -/
theorem StInv_seatLabeled {kcap tc : Int} {st : SeatState} {tid : Nat}
    {dom : Side} {cat : Category} {chunk : List Guest}
    (h : StInv kcap tc st)
    (hroom : ∀ t, lookupTable st.tables tid = some t →
      0 < t.capacity - (sumAmt t.guests : Int) ∧
      (sumAmt t.guests : Int) + (sumAmt chunk : Int) ≤ t.capacity) :
    StInv kcap tc (seatLabeled st tid dom cat chunk) := by
  obtain ⟨htbl, hctr⟩ := h
  refine ⟨TblInv_seat htbl (fun t => ?_) hroom, ?_⟩
  · dsimp only
    split_ifs <;> exact ⟨rfl, rfl, rfl⟩
  · intro p hp
    rcases updateFirst_mem hp with hin | ⟨t, hlk, rfl⟩
    · exact hctr p hin
    · have := hctr (tid, t) (lookupTable_mem hlk)
      exact this

/-- Unlabeled seating preserves the state invariant under the same room
conditions. -/
theorem StInv_seatPlain {kcap tc : Int} {st : SeatState} {tid : Nat}
    {chunk : List Guest}
    (h : StInv kcap tc st)
    (hroom : ∀ t, lookupTable st.tables tid = some t →
      0 < t.capacity - (sumAmt t.guests : Int) ∧
      (sumAmt t.guests : Int) + (sumAmt chunk : Int) ≤ t.capacity) :
    StInv kcap tc (seatPlain st tid chunk) := by
  obtain ⟨htbl, hctr⟩ := h
  refine ⟨TblInv_seat htbl (fun t => ⟨rfl, rfl, rfl⟩) hroom, ?_⟩
  intro p hp
  rcases updateFirst_mem hp with hin | ⟨t, hlk, rfl⟩
  · exact hctr p hin
  · have := hctr (tid, t) (lookupTable_mem hlk)
    exact this

/-- The knight loop preserves the state invariant. -/
theorem knightLoop_StInv (kcap tc : Int) (count : Nat) (group : PGroup) :
    ∀ (fuel : Nat) (st : SeatState) (gs : List Guest) (pool : List PGroup),
    StInv kcap tc st →
    StInv kcap tc (knightLoop count group fuel st gs pool).1 := by
  intro fuel
  induction fuel with
  | zero => intro st gs pool h; exact h
  | succ fuel ih =>
    intro st gs pool h
    rw [knightLoop]
    split_ifs with hemp
    · exact h
    · cases hfb : findBestKnight st.tables (List.range count) none with
      | none => exact h
      | some pr =>
        obtain ⟨tid, maxSpace⟩ := pr
        dsimp only
        split_ifs with hck
        · exact h
        · apply ih
          apply StInv_seatLabeled h
          intro t hlk
          rcases findBestKnight_spec st.tables (List.range count) none tid maxSpace
              hfb with ⟨t2, hlk2, hsp, hpos⟩ | hnone
          · rw [hlk] at hlk2
            obtain rfl : t = t2 := by
              exact Option.some.inj hlk2
            have hckn : fitChunk maxSpace gs ≠ [] := by
              intro hc
              rw [hc] at hck
              exact hck rfl
            have hsum := fitChunk_sum hckn
            constructor
            · omega
            · omega
          · cases hnone

/-- The knight fold over candidates preserves the state invariant. -/
theorem knightFold_StInv (kcap tc : Int) (count : Nat) (cands : List PGroup) :
    ∀ (acc : SeatState × List PGroup), StInv kcap tc acc.1 →
    StInv kcap tc
      ((cands.foldl (fun acc group =>
        knightLoop count group (group.guests.length + 1) acc.1 group.guests acc.2)
        acc)).1 := by
  induction cands with
  | nil => intro acc h; exact h
  | cons gr rest ih =>
    intro acc h
    rw [List.foldl_cons]
    exact ih _ (knightLoop_StInv kcap tc count gr _ acc.1 gr.guests acc.2 h)

/-- The knight phase preserves the state invariant. -/
theorem knightPhase_StInv (kcap tc : Int) (count : Nat) (cands : List PGroup)
    (st : SeatState) (pool : List PGroup) (h : StInv kcap tc st) :
    StInv kcap tc (knightPhase count cands st pool).1 :=
  knightFold_StInv kcap tc count cands (st, pool) h

/-- The state invariant only depends on the tables and the counter. -/
theorem StInv_ext {kcap tc : Int} {s1 s2 : SeatState}
    (ht : s1.tables = s2.tables) (hc : s1.counter = s2.counter)
    (h : StInv kcap tc s1) : StInv kcap tc s2 := by
  unfold StInv TblInv at h ⊢
  rw [← ht, ← hc]
  exact h


/-- Opening and filling a new standard table preserves the state
invariant: the fill either fits the standard capacity or widens the fresh
table to exactly the single oversized first guest. -/
theorem stdOpenNew_StInv (kcap tc : Int) (group : PGroup) (st : SeatState)
    (g : Guest) (rest : List Guest) (h : StInv kcap tc st) :
    StInv kcap tc (stdOpenNew tc group st (g :: rest)).1 := by
  unfold stdOpenNew
  have hpick := newChunk_ne_nil tc g rest
  have hpickE : (newChunkAux tc 0 true tc (g :: rest)).1.isEmpty = false := by
    cases hpe : (newChunkAux tc 0 true tc (g :: rest)).1 with
    | nil => exact absurd hpe hpick
    | cons a l => rfl
  simp only [hpickE, Bool.false_eq_true, if_false]
  have hfresh : ∀ p ∈ st.tables, p.1 ≠ st.counter :=
    fun p hp => Nat.ne_of_lt (h.2 p hp)
  have htab := updateFirst_append_fresh st.tables st.counter
    { guests := [], side := some group.dominantSide,
      category := some group.dominantCategory,
      capacity := tc, isKnight := false }
    (fun t => { t with
      guests := t.guests ++ (newChunkAux tc 0 true tc (g :: rest)).1,
      capacity := (newChunkAux tc 0 true tc (g :: rest)).2 }) hfresh
  rw [htab]
  rcases newChunk_shape tc g rest with ⟨hcap, hsum⟩ | ⟨g2, hg2, hgt, hcap⟩
  · exact StInv_append_fresh h (Or.inr ⟨rfl, Or.inl hcap⟩)
      (fun _ => by simp only [occOK, List.nil_append]; omega) _
  · refine StInv_append_fresh h
      (Or.inr ⟨rfl, Or.inr ⟨g2, by simpa using hg2, hgt, hcap⟩⟩)
      (fun _ => ?_) _
    simp only [occOK, List.nil_append]
    rw [hg2, hcap]
    simp [sumAmt]

/-- The standard loop preserves the state invariant; `gsize` is the weight
of the unseated list, as the code maintains. -/
theorem stdLoop_StInv (kcap tc : Int) (group : PGroup) :
    ∀ (fuel : Nat) (st : SeatState) (gs : List Guest) (gsize : Nat),
    gsize = sumAmt gs → StInv kcap tc st →
    StInv kcap tc (stdLoop tc group fuel st gs gsize) := by
  intro fuel
  induction fuel with
  | zero => intro st gs gsize hsz h; exact h
  | succ fuel ih =>
    intro st gs gsize hsz h
    by_cases hemp : gs.isEmpty = true
    · rw [stdLoop, if_pos hemp]
      exact h
    · have hgs : gs ≠ [] := fun hc => hemp (by rw [hc]; rfl)
      rw [stdLoop, if_neg hemp]
      cases hbf : findBestFit group.dominantSide gsize
          (st.tables.filter (fun p => !p.2.isKnight)) none with
      | some pr =>
        obtain ⟨tid, sp⟩ := pr
        dsimp only
        apply StInv_seatLabeled h
        intro t hlk
        rcases findBestFit_spec _ _ _ none tid sp hbf with ⟨t2, hm, hsp, hge⟩ | hno
        · have hmem : (tid, t2) ∈ st.tables := (List.mem_filter.1 hm).1
          have hlk2 := lookup_eq_of_mem_nodup h.1.1 hmem
          rw [hlk] at hlk2
          obtain rfl : t = t2 := Option.some.inj hlk2
          have hpos : 1 ≤ sumAmt gs := sumAmt_pos gs hgs
          subst hsz
          refine ⟨by omega, by omega⟩
        · cases hno
      | none =>
        dsimp only
        split_ifs with hle
        · exact StInv_append_fresh h (Or.inr ⟨rfl, Or.inl rfl⟩)
            (fun _ => by unfold occOK; dsimp only; rw [← hsz]; exact hle) _
        · obtain ⟨g, rest, rfl⟩ := List.exists_cons_of_ne_nil hgs
          cases hbft : bestFillTable (st.tables.filter (fun p => !p.2.isKnight))
              group.dominantSide with
          | some pr2 =>
            obtain ⟨tid, space⟩ := pr2
            dsimp only
            split_ifs with hck
            · cases hop : stdOpenNew tc group st (g :: rest) with
              | mk st2 ogs =>
                have hinv2 := stdOpenNew_StInv kcap tc group st g rest h
                rw [hop] at hinv2
                cases ogs with
                | none => exact hinv2
                | some gs2 => exact ih _ _ _ rfl hinv2
            · apply ih _ _ _ rfl
              apply StInv_seatPlain h
              intro t hlk
              obtain ⟨t2, hm, hsp, hpos⟩ := bestFillTable_spec _ _ _ _ hbft
              have hmem : (tid, t2) ∈ st.tables := (List.mem_filter.1 hm).1
              have hlk2 := lookup_eq_of_mem_nodup h.1.1 hmem
              rw [hlk] at hlk2
              obtain rfl : t = t2 := Option.some.inj hlk2
              have hckn : fitChunk space (g :: rest) ≠ [] := by
                intro hc
                rw [hc] at hck
                exact hck rfl
              have hsum := fitChunk_sum hckn
              refine ⟨by omega, by omega⟩
          | none =>
            dsimp only
            cases hop : stdOpenNew tc group st (g :: rest) with
            | mk st2 ogs =>
              have hinv2 := stdOpenNew_StInv kcap tc group st g rest h
              rw [hop] at hinv2
              cases ogs with
              | none => exact hinv2
              | some gs2 => exact ih _ _ _ rfl hinv2

/-- The standard phase preserves the state invariant. -/
theorem stdPhase_StInv (kcap tc : Int) (pool : List PGroup) :
    ∀ (st : SeatState), StInv kcap tc st → StInv kcap tc (stdPhase tc pool st) := by
  induction pool with
  | nil => intro st h; exact h
  | cons gr rest ih =>
    intro st h
    unfold stdPhase
    rw [List.foldl_cons]
    exact ih _ (stdLoop_StInv kcap tc gr _ st gr.guests _ rfl h)

/-- Deleting a table preserves the collection invariant. -/
theorem removeTable_TblInv {kcap tc : Int} {ts : List (Nat × WTable)} (tid : Nat)
    (h : TblInv kcap tc ts) : TblInv kcap tc (removeTable ts tid) := by
  obtain ⟨hnd, hsh, hocc⟩ := h
  have hsub : List.Sublist (removeTable ts tid) ts := List.eraseP_sublist _
  exact ⟨hnd.sublist (hsub.map (·.1)),
    fun p hp => hsh p (hsub.subset hp),
    fun hk p hp => hocc hk p (hsub.subset hp)⟩

/-- The consolidator's inner scan preserves the collection invariant: a
merge happens only into a non-full anchor with room for both loads. -/
theorem consolidateInner_TblInv (kcap tc : Int) (idA : Nat) (capA : Int)
    (sizeA : Nat) :
    ∀ (rest : List Nat) (ts : List (Nat × WTable)) (merged : List Nat),
    TblInv kcap tc ts →
    (∀ tA, lookupTable ts idA = some tA →
      tA.capacity = capA ∧ sumAmt tA.guests = sizeA) →
    (sizeA : Int) < capA →
    TblInv kcap tc (consolidateInner idA capA sizeA rest (ts, merged)).1 := by
  intro rest
  induction rest with
  | nil => intro ts merged h _ _; exact h
  | cons idB rest ih =>
    intro ts merged h hA hlt
    rw [consolidateInner]
    split_ifs with hmg
    · exact ih ts merged h hA hlt
    · cases hlkB : lookupTable ts idB with
      | none => exact ih ts merged h hA hlt
      | some tB =>
        dsimp only
        split_ifs with hfit
        · apply removeTable_TblInv
          refine @TblInv_seat kcap tc ts idA _ tB.guests h
            (fun t => ⟨rfl, rfl, rfl⟩) ?_
          intro t hlk
          obtain ⟨hcapA, hszA⟩ := hA t hlk
          constructor
          · omega
          · omega
        · exact ih ts merged h hA hlt

/-- The consolidator's outer scan preserves the collection invariant. -/
theorem consolidateOuter_TblInv (kcap tc : Int) :
    ∀ (order : List Nat) (acc : List (Nat × WTable) × List Nat),
    TblInv kcap tc acc.1 → TblInv kcap tc (consolidateOuter order acc) := by
  intro order
  induction order with
  | nil => intro acc h; obtain ⟨ts, merged⟩ := acc; exact h
  | cons idA rest ih =>
    intro acc h
    obtain ⟨ts, merged⟩ := acc
    rw [consolidateOuter]
    split_ifs with hmg
    · exact ih (ts, merged) h
    · cases hlkA : lookupTable ts idA with
      | none => exact ih (ts, merged) h
      | some tA =>
        dsimp only
        split_ifs with hfull
        · exact ih (ts, merged) h
        · apply ih
          apply consolidateInner_TblInv kcap tc idA tA.capacity
            (sumAmt tA.guests) rest ts merged h
          · intro t hlk
            rw [hlkA] at hlk
            obtain rfl : tA = t := Option.some.inj hlk
            exact ⟨rfl, rfl⟩
          · omega

/-- Consolidation preserves the collection invariant. -/
theorem consolidate_TblInv {kcap tc : Int} {ts : List (Nat × WTable)}
    (h : TblInv kcap tc ts) : TblInv kcap tc (consolidate ts) :=
  consolidateOuter_TblInv kcap tc _ (ts, []) h

/-- The initial working set satisfies the invariant. -/
theorem initState_StInv (kcap tc : Int) : StInv kcap tc initState :=
  ⟨⟨by simp [initState], by simp [initState], by simp [initState]⟩,
   by simp [initState]⟩

/-- Creating the knight bank preserves the invariant. -/
theorem initKnightTables_StInv (kc : KnightConfig) (tc : Int) (st : SeatState)
    (h : StInv kc.capacity tc st) :
    StInv kc.capacity tc (initKnightTables kc st) := by
  unfold initKnightTables
  generalize List.range kc.count.toNat = l
  induction l generalizing st with
  | nil => exact h
  | cons i rest ih =>
    rw [List.foldl_cons]
    apply ih
    exact StInv_append_fresh h (Or.inl ⟨rfl, rfl⟩)
      (fun hk => by unfold occOK; simpa [sumAmt] using hk) _

/-- The knight stage establishes the state invariant. -/
theorem knightStage_StInv (tc : Int) (guests : List Guest)
    (config : OptimizationConfig) :
    StInv (config.knightConfig.getD defaultKnight).capacity tc
      (knightStage guests config).1 := by
  rw [knightStage]
  split_ifs with hen
  · apply knightPhase_StInv
    exact initKnightTables_StInv _ tc initState (initState_StInv _ tc)
  · exact initState_StInv _ tc

/-- The standard stage establishes the state invariant. -/
theorem stdStage_StInv (guests : List Guest) (config : OptimizationConfig) :
    StInv (config.knightConfig.getD defaultKnight).capacity
      (config.tableCapacity.getD 12) (stdStage guests config) := by
  unfold stdStage
  exact stdPhase_StInv _ _ _ _ (knightStage_StInv _ guests config)

/-! ### C7 -/

/-- C7: capacity respect.  For every run whose knight capacity is
non-negative (the data model declares it positive; the default is 20),
every table after the knight pass, after the standard pass, and in the
returned result has occupancy at most its declared capacity — in fact
without the claim's allowance for one widened table, because widening sets
the declared capacity to exactly the oversized occupant's amount. -/
theorem C7_capacity_respected (guests : List Guest) (config : OptimizationConfig)
    (hk : 0 ≤ (config.knightConfig.getD defaultKnight).capacity) :
    (∀ p ∈ (knightStage guests config).1.tables, occOK p) ∧
    (∀ p ∈ (stdStage guests config).tables, occOK p) ∧
    (∀ p ∈ (optimizeSeating guests config).tables, occOK p) :=
  ⟨(knightStage_StInv (config.tableCapacity.getD 12) guests config).1.2.2 hk,
   (stdStage_StInv guests config).1.2.2 hk,
   (consolidate_TblInv (stdStage_StInv guests config).1).2.2 hk⟩

/-- C7 witness: the theorem applied at a concrete one-guest default run,
whose single table has occupancy 1 within capacity 12. -/
theorem C7_witness :
    occOK (0, { guests := [tieGroomGuest], side := some Side.groom,
                category := some Category.family, capacity := 12,
                isKnight := false }) :=
  (C7_capacity_respected [tieGroomGuest] {} (by decide)).2.2
    (0, { guests := [tieGroomGuest], side := some Side.groom,
          category := some Category.family, capacity := 12, isKnight := false })
    (by decide)

/-! ### C8 -/

/-- C8: widening happens only when opening a brand-new standard table whose
first unseated candidate exceeds the standard capacity, and it sets the
capacity to exactly that member's amount with the member seated alone:
every table of every result is a knight table at the knight capacity, a
standard table at the standard capacity, or a widened standard table
holding exactly one guest whose amount exceeds the standard capacity, with
capacity equal to that amount.  Scenario C: the single guest of amount 15
under capacity 12 yields exactly one widened standard table with capacity
15 and occupancy 15. -/
theorem C8_widening_only_new_oversized :
    (∀ (guests : List Guest) (config : OptimizationConfig),
      ∀ p ∈ (optimizeSeating guests config).tables,
        shapeOK (config.knightConfig.getD defaultKnight).capacity
          (config.tableCapacity.getD 12) p) ∧
    (optimizeSeating [oversizedGuest] { tableCapacity := some 12 }).tables.map
        (fun p => (p.1, p.2.capacity, sumAmt p.2.guests, p.2.isKnight)) =
      [(0, 15, 15, false)] := by
  constructor
  · intro guests config p hp
    exact (consolidate_TblInv (stdStage_StInv guests config).1).2.1 p hp
  · decide

/-- C8 witness: the widening theorem applied at the scenario C run; its
single table has the widened shape. -/
theorem C8_witness :
    shapeOK 20 12
      (0, { guests := [oversizedGuest], side := some Side.bride,
            category := some Category.family, capacity := 15,
            isKnight := false }) :=
  C8_widening_only_new_oversized.1 [oversizedGuest] { tableCapacity := some 12 }
    (0, { guests := [oversizedGuest], side := some Side.bride,
          category := some Category.family, capacity := 15, isKnight := false })
    (by decide)

/-! ### Guest accounting (towards C10) -/

/-- All guests seated across a table collection, in order. -/
def allSeated (ts : List (Nat × WTable)) : List Guest :=
  (ts.map (·.2.guests)).flatten

/-- All guests waiting in a pool of groups, in order. -/
def poolAll (pool : List PGroup) : List Guest :=
  (pool.map (·.guests)).flatten

/-- The multiset of ids of a guest list. -/
def guestIds (l : List Guest) : Multiset String :=
  (l.map (·.id) : Multiset String)

/-- The multiset of seated ids of a table collection. -/
def tableIds (ts : List (Nat × WTable)) : Multiset String :=
  guestIds (allSeated ts)

/-- The multiset of pooled ids. -/
def poolIds (pool : List PGroup) : Multiset String :=
  guestIds (poolAll pool)

theorem guestIds_append (l₁ l₂ : List Guest) :
    guestIds (l₁ ++ l₂) = guestIds l₁ + guestIds l₂ := by
  simp [guestIds]

theorem guestIds_nil : guestIds [] = 0 := rfl

theorem tableIds_append (ts₁ ts₂ : List (Nat × WTable)) :
    tableIds (ts₁ ++ ts₂) = tableIds ts₁ + tableIds ts₂ := by
  simp [tableIds, allSeated, guestIds]

theorem tableIds_cons (p : Nat × WTable) (ts : List (Nat × WTable)) :
    tableIds (p :: ts) = guestIds p.2.guests + tableIds ts := by
  simp [tableIds, allSeated, guestIds]

theorem tableIds_single (p : Nat × WTable) :
    tableIds [p] = guestIds p.2.guests := by
  simp [tableIds, allSeated, guestIds]

theorem poolIds_append (p₁ p₂ : List PGroup) :
    poolIds (p₁ ++ p₂) = poolIds p₁ + poolIds p₂ := by
  simp [poolIds, poolAll, guestIds]

theorem poolIds_cons (gr : PGroup) (pool : List PGroup) :
    poolIds (gr :: pool) = guestIds gr.guests + poolIds pool := by
  simp [poolIds, poolAll, guestIds]

theorem poolIds_single (gr : PGroup) : poolIds [gr] = guestIds gr.guests := by
  simp [poolIds, poolAll, guestIds]

/-- Erasing the first id-match of the head of a sublist: with distinct ids,
the erased element is the head itself, the tail stays a sublist, and the
list is a permutation of head plus remainder. -/
theorem eraseP_id_step {gs : List Guest} {c : Guest} {rest : List Guest}
    (hnd : (gs.map (·.id)).Nodup)
    (hsub : List.Sublist (c :: rest) gs) :
    List.Sublist rest (gs.eraseP (fun x => x.id == c.id)) ∧
    List.Perm gs (c :: gs.eraseP (fun x => x.id == c.id)) := by
  induction gs with
  | nil => cases hsub
  | cons x gs2 ih =>
    rw [List.map_cons] at hnd
    cases hsub with
    | cons₂ _ hsub2 =>
      have hpx : (c.id == c.id) = true := by simp
      rw [List.eraseP_cons, hpx]
      exact ⟨hsub2, List.Perm.refl _⟩
    | cons _ hsub2 =>
      have hc : c ∈ gs2 := hsub2.subset (List.mem_cons_self _ _)
      have hcx : x.id ≠ c.id := by
        intro he
        exact (List.nodup_cons.1 hnd).1
          (he ▸ List.mem_map_of_mem (fun y => Guest.id y) hc)
      have hpx : (x.id == c.id) = false := by simpa using hcx
      rw [List.eraseP_cons, hpx]
      obtain ⟨h1, h2⟩ := ih (List.nodup_cons.1 hnd).2 hsub2
      refine ⟨List.Sublist.cons x h1, ?_⟩
      exact List.Perm.trans (List.Perm.cons x h2)
        (List.Perm.swap c x (gs2.eraseP (fun y => y.id == c.id)))

/-- Removing a chunk that is a sublist of an id-distinct list splits it as
a permutation: the original is the chunk plus the remainder. -/
theorem removeChunk_perm {gs chunk : List Guest}
    (hnd : (gs.map (·.id)).Nodup) (hsub : List.Sublist chunk gs) :
    List.Perm gs (chunk ++ removeChunk gs chunk) := by
  induction chunk generalizing gs with
  | nil => exact List.Perm.refl _
  | cons c rest ih =>
    obtain ⟨h1, h2⟩ := eraseP_id_step hnd hsub
    have hnd2 : ((gs.eraseP (fun x => x.id == c.id)).map (·.id)).Nodup :=
      hnd.sublist ((List.eraseP_sublist _).map (fun y => Guest.id y))
    have ih2 := ih hnd2 h1
    have hrc : removeChunk gs (c :: rest) =
        removeChunk (gs.eraseP (fun x => x.id == c.id)) rest := rfl
    rw [hrc, List.cons_append]
    exact List.Perm.trans h2 (List.Perm.cons c ih2)

/-- Guest-id bookkeeping of chunk removal, as multisets. -/
theorem removeChunk_ids {gs chunk : List Guest}
    (hnd : (gs.map (·.id)).Nodup) (hsub : List.Sublist chunk gs) :
    guestIds gs = guestIds chunk + guestIds (removeChunk gs chunk) := by
  have h := removeChunk_perm hnd hsub
  have h2 : List.Perm (gs.map (·.id))
      ((chunk ++ removeChunk gs chunk).map (·.id)) := h.map _
  rw [List.map_append] at h2
  unfold guestIds
  exact Quot.sound h2

/-- Updating an existing table by appending a chunk adds exactly the
chunk's ids to the seated multiset. -/
theorem tableIds_updateFirst {ts : List (Nat × WTable)} {tid : Nat}
    {f : WTable → WTable} {chunk : List Guest}
    (hf : ∀ t, (f t).guests = t.guests ++ chunk)
    (hlk : (lookupTable ts tid).isSome = true) :
    tableIds (updateFirst ts tid f) = tableIds ts + guestIds chunk := by
  induction ts with
  | nil => simp [lookupTable] at hlk
  | cons p rest ih =>
    cases p with
    | mk i t =>
      rw [updateFirst]
      split_ifs with hi
      · rw [tableIds_cons, tableIds_cons]
        dsimp only
        rw [hf t, guestIds_append, add_right_comm]
      · rw [tableIds_cons, tableIds_cons]
        have hbe : (i == tid) = false := by simpa using hi
        have hlk2 : (lookupTable rest tid).isSome = true := by
          simp only [lookupTable, List.find?, hbe] at hlk
          simpa only [lookupTable] using hlk
        rw [ih hlk2, add_assoc]

/-- Labeled seating adds exactly the chunk ids. -/
theorem seatLabeled_ids {st : SeatState} {tid : Nat} {dom : Side}
    {cat : Category} {chunk : List Guest}
    (hlk : (lookupTable st.tables tid).isSome = true) :
    tableIds (seatLabeled st tid dom cat chunk).tables =
      tableIds st.tables + guestIds chunk :=
  tableIds_updateFirst (fun t => by dsimp only; split_ifs <;> rfl) hlk

/-- Unlabeled seating adds exactly the chunk ids. -/
theorem seatPlain_ids {st : SeatState} {tid : Nat} {chunk : List Guest}
    (hlk : (lookupTable st.tables tid).isSome = true) :
    tableIds (seatPlain st tid chunk).tables =
      tableIds st.tables + guestIds chunk :=
  tableIds_updateFirst (fun _ => rfl) hlk

/-- The knight bank starts empty: creating it seats nobody. -/
theorem initKnightTables_ids (kc : KnightConfig) (st : SeatState) :
    tableIds (initKnightTables kc st).tables = tableIds st.tables := by
  unfold initKnightTables
  generalize List.range kc.count.toNat = l
  induction l generalizing st with
  | nil => rfl
  | cons i rest ih =>
    rw [List.foldl_cons]
    rw [ih]
    dsimp only
    rw [tableIds_append, tableIds_single]
    simp [guestIds]

/-- Updating one key does not change lookups of other keys. -/
theorem lookupTable_updateFirst_ne (ts : List (Nat × WTable)) (tid tid2 : Nat)
    (f : WTable → WTable) (h : tid ≠ tid2) :
    lookupTable (updateFirst ts tid f) tid2 = lookupTable ts tid2 := by
  induction ts with
  | nil => rfl
  | cons p rest ih =>
    cases p with
    | mk i t =>
      rw [updateFirst]
      split_ifs with hi
      · subst hi
        have hbe : (i == tid2) = false := by simpa using h
        simp only [lookupTable, List.find?, hbe]
      · by_cases h2 : i = tid2
        · subst h2
          simp only [lookupTable, List.find?, beq_self_eq_true]
        · have hbe : (i == tid2) = false := by simpa using h2
          simp only [lookupTable, List.find?, hbe]
          simpa only [lookupTable] using ih

/-- Deleting a looked-up table removes exactly its guests' ids. -/
theorem removeTable_ids {ts : List (Nat × WTable)} {tid : Nat} {t : WTable}
    (hlk : lookupTable ts tid = some t) :
    tableIds (removeTable ts tid) + guestIds t.guests = tableIds ts := by
  induction ts with
  | nil => simp [lookupTable] at hlk
  | cons p rest ih =>
    cases p with
    | mk i t2 =>
      by_cases hi : i = tid
      · subst hi
        have hbe : (i == i) = true := by simp
        have ht2 : t2 = t := by
          simp only [lookupTable, List.find?, hbe] at hlk
          simpa using hlk
        subst ht2
        unfold removeTable
        rw [List.eraseP_cons]
        simp only [hbe, Bool.cond_true, tableIds_cons]
        rw [add_comm]
      · have hbe : (i == tid) = false := by simpa using hi
        have hlk2 : lookupTable rest tid = some t := by
          simp only [lookupTable, List.find?, hbe] at hlk
          simpa only [lookupTable] using hlk
        unfold removeTable at ih ⊢
        rw [List.eraseP_cons]
        simp only [hbe, Bool.cond_false, tableIds_cons]
        rw [add_assoc, ih hlk2]

/-- The knight loop never adds ids: every id seated or pooled afterwards
was seated, pooled or unseated before (the chunk-empty exit drops the
remainder, hence the inequality). -/
theorem knightLoop_ids (count : Nat) (group : PGroup) :
    ∀ (fuel : Nat) (st : SeatState) (gs : List Guest) (pool : List PGroup),
    (tableIds st.tables + poolIds pool + guestIds gs).Nodup →
    tableIds (knightLoop count group fuel st gs pool).1.tables +
      poolIds (knightLoop count group fuel st gs pool).2 ≤
      tableIds st.tables + poolIds pool + guestIds gs := by
  intro fuel
  induction fuel with
  | zero =>
    intro st gs pool _
    exact le_add_right (le_refl _)
  | succ fuel ih =>
    intro st gs pool hnd
    rw [knightLoop]
    split_ifs with hemp
    · exact le_add_right (le_refl _)
    · cases hfb : findBestKnight st.tables (List.range count) none with
      | none =>
        dsimp only
        rw [poolIds_append, poolIds_single]
        exact le_of_eq (by abel)
      | some pr =>
        obtain ⟨tid, maxSpace⟩ := pr
        dsimp only
        split_ifs with hck
        · exact le_add_right (le_refl _)
        · have hckn : fitChunk maxSpace gs ≠ [] := by
            intro hc
            rw [hc] at hck
            exact hck rfl
          have hsub := fitChunk_sublist maxSpace gs
          have hndG : (gs.map (·.id)).Nodup := by
            have hle : guestIds gs ≤
                tableIds st.tables + poolIds pool + guestIds gs :=
              le_add_self
            exact Multiset.coe_nodup.1 (Multiset.nodup_of_le hle hnd)
          have hGsplit := removeChunk_ids hndG hsub
          have hlkSome : (lookupTable st.tables tid).isSome = true := by
            rcases findBestKnight_spec st.tables (List.range count) none tid
                maxSpace hfb with ⟨t, hlk, _, _⟩ | hno
            · rw [hlk]; rfl
            · cases hno
          have hbudget :
              tableIds (seatLabeled st tid group.dominantSide
                group.dominantCategory (fitChunk maxSpace gs)).tables +
                poolIds pool +
                guestIds (removeChunk gs (fitChunk maxSpace gs)) =
              tableIds st.tables + poolIds pool + guestIds gs := by
            rw [seatLabeled_ids hlkSome, hGsplit]
            abel
          have hnd2 : (tableIds (seatLabeled st tid group.dominantSide
              group.dominantCategory (fitChunk maxSpace gs)).tables +
              poolIds pool +
              guestIds (removeChunk gs (fitChunk maxSpace gs))).Nodup := by
            rw [hbudget]
            exact hnd
          have := ih (seatLabeled st tid group.dominantSide
            group.dominantCategory (fitChunk maxSpace gs))
            (removeChunk gs (fitChunk maxSpace gs)) pool hnd2
          exact le_of_le_of_eq this hbudget

/-- The knight candidate fold never adds ids. -/
theorem knightFold_ids (count : Nat) (cands : List PGroup) :
    ∀ (acc : SeatState × List PGroup),
    (tableIds acc.1.tables + poolIds acc.2 + poolIds cands).Nodup →
    tableIds ((cands.foldl (fun acc group =>
        knightLoop count group (group.guests.length + 1) acc.1 group.guests acc.2)
        acc)).1.tables +
      poolIds ((cands.foldl (fun acc group =>
        knightLoop count group (group.guests.length + 1) acc.1 group.guests acc.2)
        acc)).2 ≤
      tableIds acc.1.tables + poolIds acc.2 + poolIds cands := by
  induction cands with
  | nil =>
    intro acc _
    exact le_add_right (le_refl _)
  | cons gr rest ih =>
    intro acc hnd
    rw [List.foldl_cons]
    have hstep : tableIds acc.1.tables + poolIds acc.2 + guestIds gr.guests +
        poolIds rest =
        tableIds acc.1.tables + poolIds acc.2 + poolIds (gr :: rest) := by
      rw [poolIds_cons]
      abel
    have hnd1 : (tableIds acc.1.tables + poolIds acc.2 +
        guestIds gr.guests).Nodup := by
      apply Multiset.nodup_of_le (le_add_right (le_refl _))
      rw [hstep]
      exact hnd
    have h1 := knightLoop_ids count gr (gr.guests.length + 1) acc.1 gr.guests
      acc.2 hnd1
    have hnd2 : (tableIds (knightLoop count gr (gr.guests.length + 1) acc.1
        gr.guests acc.2).1.tables +
        poolIds (knightLoop count gr (gr.guests.length + 1) acc.1 gr.guests
          acc.2).2 + poolIds rest).Nodup := by
      apply Multiset.nodup_of_le (add_le_add_right h1 (poolIds rest))
      rw [hstep]
      exact hnd
    have h2 := ih (knightLoop count gr (gr.guests.length + 1) acc.1 gr.guests
      acc.2) hnd2
    exact le_of_le_of_eq (le_trans h2 (add_le_add_right h1 (poolIds rest))) hstep

/-- Membership of a key makes the lookup succeed. -/
theorem lookupTable_isSome_of_mem {ts : List (Nat × WTable)} {tid : Nat}
    {t : WTable} (hm : (tid, t) ∈ ts) : (lookupTable ts tid).isSome = true := by
  unfold lookupTable
  have hex : ∃ x ∈ ts, (fun p => p.1 == tid) x = true := ⟨(tid, t), hm, by simp⟩
  rw [← List.find?_isSome] at hex
  cases hf : ts.find? (fun p => p.1 == tid) with
  | none => rw [hf] at hex; simp at hex
  | some p => simp [hf]

/-- Counter freshness: every table id is below the counter. -/
def CtrInv (st : SeatState) : Prop :=
  ∀ p ∈ st.tables, p.1 < st.counter

/-- Seating into an existing table keeps counter freshness. -/
theorem CtrInv_updateFirst {st : SeatState} {tid : Nat} {f : WTable → WTable}
    (h : CtrInv st) (a : List (String × Nat)) :
    CtrInv { st with tables := updateFirst st.tables tid f, assign := a } := by
  intro p hp
  rcases updateFirst_mem hp with hin | ⟨t, hlk, rfl⟩
  · exact h p hin
  · have := h (tid, t) (lookupTable_mem hlk)
    exact this

/-- Opening a new table seats exactly the scanned chunk and returns the
remainder; nobody is dropped because the scan always takes the first
candidate. -/
theorem stdOpenNew_ids (tc : Int) (group : PGroup) (st : SeatState)
    (g : Guest) (rest : List Guest) (hctr : CtrInv st) :
    (stdOpenNew tc group st (g :: rest)).2 =
      some (removeChunk (g :: rest) (newChunkAux tc 0 true tc (g :: rest)).1) ∧
    tableIds (stdOpenNew tc group st (g :: rest)).1.tables =
      tableIds st.tables +
        guestIds (newChunkAux tc 0 true tc (g :: rest)).1 ∧
    CtrInv (stdOpenNew tc group st (g :: rest)).1 := by
  unfold stdOpenNew
  have hpick := newChunk_ne_nil tc g rest
  have hpickE : (newChunkAux tc 0 true tc (g :: rest)).1.isEmpty = false := by
    cases hpe : (newChunkAux tc 0 true tc (g :: rest)).1 with
    | nil => exact absurd hpe hpick
    | cons a l => rfl
  simp only [hpickE, Bool.false_eq_true, if_false]
  have hfresh : ∀ p ∈ st.tables, p.1 ≠ st.counter :=
    fun p hp => Nat.ne_of_lt (hctr p hp)
  have htab := updateFirst_append_fresh st.tables st.counter
    { guests := [], side := some group.dominantSide,
      category := some group.dominantCategory,
      capacity := tc, isKnight := false }
    (fun t => { t with
      guests := t.guests ++ (newChunkAux tc 0 true tc (g :: rest)).1,
      capacity := (newChunkAux tc 0 true tc (g :: rest)).2 }) hfresh
  refine ⟨trivial, ?_, ?_⟩
  · rw [htab, tableIds_append, tableIds_single]
    dsimp only
    rw [List.nil_append]
  · intro p hp
    dsimp only at hp ⊢
    rw [htab] at hp
    rcases List.mem_append.1 hp with hin | hnew
    · exact Nat.lt_succ_of_lt (hctr p hin)
    · simp at hnew
      subst hnew
      exact Nat.lt_succ_self _

/-- Plain seating does not touch the counter or the key set. -/
theorem CtrInv_seatPlain {st : SeatState} {tid : Nat} {chunk : List Guest}
    (h : CtrInv st) : CtrInv (seatPlain st tid chunk) :=
  CtrInv_updateFirst h (st.assign ++ chunk.map (fun g => (g.id, tid)))

/-- The standard loop never adds ids: every id seated afterwards was seated
before or came from the group being processed. -/
theorem stdLoop_ids (tc : Int) (group : PGroup) :
    ∀ (fuel : Nat) (st : SeatState) (gs : List Guest) (gsize : Nat),
    CtrInv st → (tableIds st.tables + guestIds gs).Nodup →
    tableIds (stdLoop tc group fuel st gs gsize).tables ≤
      tableIds st.tables + guestIds gs := by
  intro fuel
  induction fuel with
  | zero =>
    intro st gs gsize _ _
    exact le_add_right (le_refl _)
  | succ fuel ih =>
    intro st gs gsize hctr hnd
    by_cases hemp : gs.isEmpty = true
    · rw [stdLoop, if_pos hemp]
      exact le_add_right (le_refl _)
    · have hgs : gs ≠ [] := fun hc => hemp (by rw [hc]; rfl)
      rw [stdLoop, if_neg hemp]
      cases hbf : findBestFit group.dominantSide gsize
          (st.tables.filter (fun p => !p.2.isKnight)) none with
      | some pr =>
        obtain ⟨tid, sp⟩ := pr
        dsimp only
        rcases findBestFit_spec _ _ _ none tid sp hbf with ⟨t2, hm, _, _⟩ | hno
        · have hmem : (tid, t2) ∈ st.tables := (List.mem_filter.1 hm).1
          exact le_of_eq (seatLabeled_ids (lookupTable_isSome_of_mem hmem))
        · cases hno
      | none =>
        dsimp only
        split_ifs with hle
        · refine le_of_eq ?_
          dsimp only
          rw [tableIds_append, tableIds_single]
        · obtain ⟨g, rest, rfl⟩ := List.exists_cons_of_ne_nil hgs
          have hndG : ((g :: rest).map (fun y => Guest.id y)).Nodup := by
            have hle2 : guestIds (g :: rest) ≤
                tableIds st.tables + guestIds (g :: rest) := le_add_self
            exact Multiset.coe_nodup.1 (Multiset.nodup_of_le hle2 hnd)
          have hopen : ∀ st2 gs2,
              stdOpenNew tc group st (g :: rest) = (st2, some gs2) →
              tableIds (stdLoop tc group fuel st2 gs2 (sumAmt gs2)).tables ≤
                tableIds st.tables + guestIds (g :: rest) := by
            intro st2 gs2 hop
            have hids := stdOpenNew_ids tc group st g rest hctr
            rw [hop] at hids
            dsimp only at hids
            obtain ⟨hsnd, htab, hctr2⟩ := hids
            obtain rfl : gs2 =
                removeChunk (g :: rest) (newChunkAux tc 0 true tc (g :: rest)).1 :=
              Option.some.inj hsnd
            have hsub := newChunkAux_sublist tc (g :: rest) 0 true tc
            have hGsplit := removeChunk_ids hndG hsub
            have hbudget : tableIds st2.tables +
                guestIds (removeChunk (g :: rest)
                  (newChunkAux tc 0 true tc (g :: rest)).1) =
                tableIds st.tables + guestIds (g :: rest) := by
              rw [htab, hGsplit]
              abel
            have hnd2 : (tableIds st2.tables +
                guestIds (removeChunk (g :: rest)
                  (newChunkAux tc 0 true tc (g :: rest)).1)).Nodup := by
              rw [hbudget]; exact hnd
            exact le_of_le_of_eq (ih st2 _ (sumAmt _) hctr2 hnd2) hbudget
          cases hbft : bestFillTable (st.tables.filter (fun p => !p.2.isKnight))
              group.dominantSide with
          | some pr2 =>
            obtain ⟨tid, space⟩ := pr2
            dsimp only
            split_ifs with hck
            · cases hop : stdOpenNew tc group st (g :: rest) with
              | mk st2 ogs =>
                cases ogs with
                | none =>
                  have hids := stdOpenNew_ids tc group st g rest hctr
                  rw [hop] at hids
                  exact Option.noConfusion hids.1
                | some gs2 => exact hopen st2 gs2 hop
            · obtain ⟨t2, hm, _, _⟩ := bestFillTable_spec _ _ _ _ hbft
              have hmem : (tid, t2) ∈ st.tables := (List.mem_filter.1 hm).1
              have hlk := lookupTable_isSome_of_mem hmem
              have htab :=
                @seatPlain_ids st tid (fitChunk space (g :: rest)) hlk
              have hsub := fitChunk_sublist space (g :: rest)
              have hGsplit := removeChunk_ids hndG hsub
              have hbudget :
                  tableIds (seatPlain st tid (fitChunk space (g :: rest))).tables +
                    guestIds (removeChunk (g :: rest)
                      (fitChunk space (g :: rest))) =
                  tableIds st.tables + guestIds (g :: rest) := by
                rw [htab, hGsplit]
                abel
              have hnd2 :
                  (tableIds (seatPlain st tid (fitChunk space (g :: rest))).tables +
                    guestIds (removeChunk (g :: rest)
                      (fitChunk space (g :: rest)))).Nodup := by
                rw [hbudget]; exact hnd
              exact le_of_le_of_eq
                (ih _ _ _ (CtrInv_seatPlain hctr) hnd2) hbudget
          | none =>
            dsimp only
            cases hop : stdOpenNew tc group st (g :: rest) with
            | mk st2 ogs =>
              cases ogs with
              | none =>
                have hids := stdOpenNew_ids tc group st g rest hctr
                rw [hop] at hids
                exact Option.noConfusion hids.1
              | some gs2 => exact hopen st2 gs2 hop

/-- The standard phase never adds ids: every id seated afterwards was
seated before or waiting in the pool. -/
theorem stdPhase_ids (kcap tc : Int) (pool : List PGroup) :
    ∀ (st : SeatState), StInv kcap tc st →
    (tableIds st.tables + poolIds pool).Nodup →
    tableIds (stdPhase tc pool st).tables ≤ tableIds st.tables + poolIds pool := by
  induction pool with
  | nil =>
    intro st _ _
    exact le_add_right (le_refl _)
  | cons gr rest ih =>
    intro st hinv hnd
    have hphase : stdPhase tc (gr :: rest) st =
        stdPhase tc rest (stdLoop tc gr (gr.guests.length + 1) st gr.guests
          (sumAmt gr.guests)) := rfl
    rw [hphase]
    have hstep : tableIds st.tables + guestIds gr.guests + poolIds rest =
        tableIds st.tables + poolIds (gr :: rest) := by
      rw [poolIds_cons]
      abel
    have hnd1 : (tableIds st.tables + guestIds gr.guests).Nodup := by
      apply Multiset.nodup_of_le (le_add_right (le_refl _))
      rw [hstep]
      exact hnd
    have h1 := stdLoop_ids tc gr (gr.guests.length + 1) st gr.guests
      (sumAmt gr.guests) hinv.2 hnd1
    have hinv1 := stdLoop_StInv kcap tc gr (gr.guests.length + 1) st gr.guests
      (sumAmt gr.guests) rfl hinv
    have hnd2 : (tableIds (stdLoop tc gr (gr.guests.length + 1) st gr.guests
        (sumAmt gr.guests)).tables + poolIds rest).Nodup := by
      apply Multiset.nodup_of_le (add_le_add_right h1 (poolIds rest))
      rw [hstep]
      exact hnd
    have h2 := ih _ hinv1 hnd2
    exact le_of_le_of_eq (le_trans h2 (add_le_add_right h1 (poolIds rest))) hstep

/-- The consolidator's inner scan moves guests but never changes the seated
multiset: a merge copies the source table's guests into the anchor and then
deletes the source. -/
theorem consolidateInner_ids (idA : Nat) (capA : Int) (sizeA : Nat) :
    ∀ (rest : List Nat) (ts : List (Nat × WTable)) (merged : List Nat),
    (lookupTable ts idA).isSome = true → idA ∉ rest →
    tableIds (consolidateInner idA capA sizeA rest (ts, merged)).1 =
      tableIds ts := by
  intro rest
  induction rest with
  | nil => intro ts merged _ _; rfl
  | cons idB rest ih =>
    intro ts merged hA hnin
    have hne : idA ≠ idB := fun h => hnin (h ▸ List.mem_cons_self _ _)
    have hnin2 : idA ∉ rest := fun h => hnin (List.mem_cons_of_mem _ h)
    rw [consolidateInner]
    split_ifs with hmg
    · exact ih ts merged hA hnin2
    · cases hlkB : lookupTable ts idB with
      | none => exact ih ts merged hA hnin2
      | some tB =>
        dsimp only
        split_ifs with hfit
        · dsimp only
          have h1 : tableIds (updateFirst ts idA (fun t =>
              { t with guests := t.guests ++ tB.guests, side := some Side.both })) =
              tableIds ts + guestIds tB.guests :=
            tableIds_updateFirst (fun t => rfl) hA
          have h2 : lookupTable (updateFirst ts idA (fun t =>
              { t with guests := t.guests ++ tB.guests, side := some Side.both }))
              idB = some tB := by
            rw [lookupTable_updateFirst_ne ts idA idB _ hne]
            exact hlkB
          have h3 := removeTable_ids h2
          rw [h1] at h3
          exact add_right_cancel h3
        · exact ih ts merged hA hnin2

/-- The consolidator's outer scan preserves the seated multiset. -/
theorem consolidateOuter_ids :
    ∀ (order : List Nat) (ts : List (Nat × WTable)) (merged : List Nat),
    order.Nodup →
    tableIds (consolidateOuter order (ts, merged)) = tableIds ts := by
  intro order
  induction order with
  | nil => intro ts merged _; rfl
  | cons idA rest ih =>
    intro ts merged hnd
    rw [consolidateOuter]
    split_ifs with hmg
    · exact ih ts merged (List.nodup_cons.1 hnd).2
    · cases hlkA : lookupTable ts idA with
      | none => exact ih ts merged (List.nodup_cons.1 hnd).2
      | some tA =>
        dsimp only
        split_ifs with hfull
        · exact ih ts merged (List.nodup_cons.1 hnd).2
        · have hA : (lookupTable ts idA).isSome = true := by
            rw [hlkA]; rfl
          have hin := consolidateInner_ids idA tA.capacity (sumAmt tA.guests)
            rest ts merged hA (List.nodup_cons.1 hnd).1
          cases hci : consolidateInner idA tA.capacity (sumAmt tA.guests)
              rest (ts, merged) with
          | mk ts2 merged2 =>
            rw [hci] at hin
            rw [ih ts2 merged2 (List.nodup_cons.1 hnd).2]
            exact hin

/-- Consolidation preserves the seated multiset: guests move between tables
but none is added or dropped. -/
theorem consolidate_ids (ts : List (Nat × WTable))
    (hnd : (ts.map (fun p => Prod.fst p)).Nodup) :
    tableIds (consolidate ts) = tableIds ts := by
  have hord : ((insertionSort (fun a b => sumAmt a.2.guests ≤ sumAmt b.2.guests)
      (ts.filter (fun p => !p.2.isKnight))).map (fun p => Prod.fst p)).Nodup := by
    have h1 := insertionSort_perm (fun a b => sumAmt a.2.guests ≤ sumAmt b.2.guests)
      (ts.filter (fun p => !p.2.isKnight))
    have h2 := h1.map (fun p => Prod.fst p)
    apply h2.nodup_iff.2
    exact hnd.sublist ((List.filter_sublist _).map (fun p => Prod.fst p))
  exact consolidateOuter_ids _ ts [] hord

/-- All guests stored across grouping buckets, in order. -/
def bucketAll (acc : List (String × List Guest)) : List Guest :=
  (acc.map (·.2)).flatten

theorem bucketAll_nil : bucketAll [] = [] := rfl

theorem bucketAll_cons (p : String × List Guest)
    (rest : List (String × List Guest)) :
    bucketAll (p :: rest) = p.2 ++ bucketAll rest := by
  simp [bucketAll]

theorem bucketAll_append (a b : List (String × List Guest)) :
    bucketAll (a ++ b) = bucketAll a ++ bucketAll b := by
  simp [bucketAll]

theorem guestIds_cons (g : Guest) (l : List Guest) :
    guestIds (g :: l) = guestIds [g] + guestIds l :=
  guestIds_append [g] l

/-- Inserting into a bucket stores exactly one more copy of the guest. -/
theorem bucketAll_insertBucket (key : String) (g : Guest) :
    ∀ acc, guestIds (bucketAll (insertBucket acc key g)) =
      guestIds (bucketAll acc) + guestIds [g] := by
  intro acc
  induction acc with
  | nil => simp [insertBucket, bucketAll, guestIds]
  | cons p rest ih =>
    cases p with
    | mk k l =>
      rw [insertBucket]
      split_ifs with hk
      · rw [bucketAll_cons, bucketAll_cons]
        dsimp only
        rw [guestIds_append, guestIds_append, guestIds_append]
        abel
      · rw [bucketAll_cons, bucketAll_cons]
        rw [guestIds_append, guestIds_append, ih]
        abel

/-- The grouping fold stores exactly the guests with a truthy group id. -/
theorem groupFold_ids (guests : List Guest) :
    ∀ acc, guestIds (bucketAll (guests.foldl (fun acc g =>
      match g.groupId with
      | some gid => if gid = "" then acc else insertBucket acc (trimStr gid) g
      | none => acc) acc)) =
    guestIds (bucketAll acc) +
      guestIds (guests.filter (fun g =>
        ¬(g.groupId = none ∨ g.groupId = some ""))) := by
  induction guests with
  | nil =>
    intro acc
    simp [guestIds]
  | cons g rest ih =>
    intro acc
    rw [List.foldl_cons]
    cases hg : g.groupId with
    | none =>
      dsimp only
      rw [ih]
      have hfc : (g :: rest).filter (fun g =>
          ¬(g.groupId = none ∨ g.groupId = some "")) =
          rest.filter (fun g => ¬(g.groupId = none ∨ g.groupId = some "")) := by
        simp [List.filter_cons, hg]
      rw [hfc]
    | some gid =>
      dsimp only
      by_cases hgid : gid = ""
      · rw [if_pos hgid, ih]
        have hfc : (g :: rest).filter (fun g =>
            ¬(g.groupId = none ∨ g.groupId = some "")) =
            rest.filter (fun g => ¬(g.groupId = none ∨ g.groupId = some "")) := by
          simp [List.filter_cons, hg, hgid]
        rw [hfc]
      · rw [if_neg hgid, ih, bucketAll_insertBucket]
        have hfc : (g :: rest).filter (fun g =>
            ¬(g.groupId = none ∨ g.groupId = some "")) =
            g :: rest.filter (fun g =>
              ¬(g.groupId = none ∨ g.groupId = some "")) := by
          simp [List.filter_cons, hg, hgid]
        have hgc := guestIds_cons g (rest.filter (fun g =>
          ¬(g.groupId = none ∨ g.groupId = some "")))
        rw [hfc, hgc]
        abel

/-- Splitting a guest list by any boolean predicate preserves the id
multiset. -/
theorem guestIds_filter_split (p : Guest → Bool) (l : List Guest) :
    guestIds (l.filter p) + guestIds (l.filter (fun g => !(p g))) =
      guestIds l := by
  induction l with
  | nil => rfl
  | cons g rest ih =>
    rw [List.filter_cons, List.filter_cons]
    have hR := guestIds_cons g rest
    cases hp : p g
    · rw [if_neg (by simp [hp]), if_pos (by simp [hp])]
      have hL := guestIds_cons g (rest.filter (fun g => !(p g)))
      rw [hL, hR, ← ih]
      abel
    · rw [if_pos (by simp [hp]), if_neg (by simp [hp])]
      have hL := guestIds_cons g (rest.filter p)
      rw [hL, hR, ← ih]
      abel

/-- Splitting off the ungrouped guests preserves the id multiset. -/
theorem grouping_split (guests : List Guest) :
    guestIds (guests.filter (fun g =>
        ¬(g.groupId = none ∨ g.groupId = some ""))) +
      guestIds (guests.filter (fun g =>
        g.groupId = none ∨ g.groupId = some "")) =
    guestIds guests := by
  have hfun : (fun g : Guest =>
      decide ¬(g.groupId = none ∨ g.groupId = some "")) =
      (fun g : Guest =>
        !(decide (g.groupId = none ∨ g.groupId = some ""))) := by
    funext g
    simp [decide_not]
  show guestIds (guests.filter (fun g : Guest =>
      decide ¬(g.groupId = none ∨ g.groupId = some ""))) +
    guestIds (guests.filter (fun g : Guest =>
      decide (g.groupId = none ∨ g.groupId = some ""))) = guestIds guests
  rw [hfun, add_comm]
  exact guestIds_filter_split
    (fun g => decide (g.groupId = none ∨ g.groupId = some "")) guests

/-- Singleton buckets flatten back to their guests. -/
theorem bucketAll_singletons (f : Guest → String) :
    ∀ l : List Guest, bucketAll (l.map (fun g => (f g, [g]))) = l := by
  intro l
  induction l with
  | nil => rfl
  | cons g rest ih => simp [bucketAll_cons, ih]

/-- Grouping preserves the id multiset: every guest lands in exactly one
bucket (its group's, or its own singleton bucket). -/
theorem grouping_ids (guests : List Guest) :
    guestIds (bucketAll (groupGuestsByRelationship guests)) = guestIds guests := by
  show guestIds (bucketAll ((guests.foldl (fun acc g =>
      match g.groupId with
      | some gid => if gid = "" then acc else insertBucket acc (trimStr gid) g
      | none => acc) []) ++
    (guests.filter (fun g => g.groupId = none ∨ g.groupId = some "")).map
      (fun g => ("individual-" ++ g.id, [g])))) = guestIds guests
  rw [bucketAll_append, guestIds_append, groupFold_ids, bucketAll_singletons]
  rw [bucketAll_nil, guestIds_nil, zero_add]
  exact grouping_split guests

/-- Classification keeps each bucket's guest list. -/
theorem poolAll_map_classify (t : List String) :
    ∀ bs : List (String × List Guest),
    poolAll (bs.map (classifyGroup t)) = bucketAll bs := by
  intro bs
  induction bs with
  | nil => rfl
  | cons b rest ih =>
    rw [List.map_cons]
    show b.2 ++ poolAll (rest.map (classifyGroup t)) = b.2 ++ bucketAll rest
    rw [ih]

/-- The processed pool carries exactly the input ids. -/
theorem processed_ids (guests : List Guest) (config : OptimizationConfig) :
    poolIds (processedGroupsOf guests config) = guestIds guests := by
  unfold processedGroupsOf poolIds
  rw [poolAll_map_classify]
  exact grouping_ids guests

theorem poolIds_eq_sum : ∀ l : List PGroup,
    poolIds l = (l.map (fun gr => guestIds gr.guests)).sum := by
  intro l
  induction l with
  | nil => rfl
  | cons gr rest ih => rw [poolIds_cons, List.map_cons, List.sum_cons, ih]

/-- Pooled ids are invariant under permutation of the groups. -/
theorem poolIds_perm {l l' : List PGroup} (h : List.Perm l l') :
    poolIds l = poolIds l' := by
  rw [poolIds_eq_sum, poolIds_eq_sum]
  exact List.Perm.sum_eq (h.map (fun gr => guestIds gr.guests))

/-- Splitting the pool by complementary predicates preserves the ids. -/
theorem poolIds_filter_split (p q : PGroup → Bool) (hq : ∀ g, q g = !p g) :
    ∀ l : List PGroup,
    poolIds (l.filter p) + poolIds (l.filter q) = poolIds l := by
  intro l
  induction l with
  | nil => rfl
  | cons g rest ih =>
    rw [List.filter_cons, List.filter_cons, hq g]
    have hR := poolIds_cons g rest
    cases hp : p g
    · rw [if_neg (by simp [hp]), if_pos (by simp [hp])]
      have hL := poolIds_cons g (rest.filter q)
      rw [hL, hR, ← ih]
      abel
    · rw [if_pos (by simp [hp]), if_neg (by simp [hp])]
      have hL := poolIds_cons g (rest.filter p)
      rw [hL, hR, ← ih]
      abel

/-- The knight pass keeps seated-plus-pooled ids within an id-distinct
budget that the initial pool and candidates add up to. -/
theorem knightPhase_le (count : Nat) (cands pool : List PGroup)
    (st0 : SeatState) (budget : Multiset String)
    (h0 : tableIds st0.tables = 0)
    (heq : poolIds pool + poolIds cands = budget)
    (hnd : budget.Nodup) :
    tableIds (knightPhase count cands st0 pool).1.tables +
      poolIds (knightPhase count cands st0 pool).2 ≤ budget := by
  have hacc : (tableIds st0.tables + poolIds pool + poolIds cands).Nodup := by
    rw [h0, zero_add, heq]
    exact hnd
  have h := knightFold_ids count cands (st0, pool) hacc
  exact le_trans h (le_of_eq (by rw [h0, zero_add, heq]))

/-- The knight stage never adds ids: all ids seated at knight tables or
still pooled for the standard pass come from the input guests. -/
theorem knightStage_ids (guests : List Guest) (config : OptimizationConfig)
    (hnd : (guests.map (fun y => Guest.id y)).Nodup) :
    tableIds (knightStage guests config).1.tables +
      poolIds (knightStage guests config).2 ≤ guestIds guests := by
  have hndm : (guestIds guests).Nodup := Multiset.coe_nodup.2 hnd
  rw [knightStage]
  split_ifs with hen
  · dsimp only
    split_ifs with hmatch
    · dsimp only
      refine knightPhase_le _ _ _ _ _ ?_ ?_ hndm
      · rw [initKnightTables_ids]
        rfl
      · rw [poolIds_perm (insertionSort_perm (fun a b => decide (b.size ≤ a.size))
          ((processedGroupsOf guests config).filter
            (fun g => decide (g.dominantCategory = Category.friend))))]
        rw [poolIds_filter_split
          (fun g => decide ¬g.dominantCategory = Category.friend)
          (fun g => decide (g.dominantCategory = Category.friend))
          (fun g => by by_cases h : g.dominantCategory = Category.friend <;> simp [h])
          (processedGroupsOf guests config)]
        exact processed_ids guests config
    · dsimp only
      refine knightPhase_le _ _ _ _ _ ?_ ?_ hndm
      · rw [initKnightTables_ids]
        rfl
      · rw [poolIds_perm (insertionSort_perm (fun a b => decide (b.size ≤ a.size))
          ((processedGroupsOf guests config).filter
            (fun g => g.isRequestedForKnight)))]
        rw [poolIds_filter_split
          (fun g => decide ¬g.isRequestedForKnight = true)
          (fun g => g.isRequestedForKnight)
          (fun g => by cases h : g.isRequestedForKnight <;> simp [h])
          (processedGroupsOf guests config)]
        exact processed_ids guests config
  · dsimp only
    have h0 : tableIds initState.tables = 0 := rfl
    rw [h0, zero_add, processed_ids]

/-- Phases A+B never add ids: everything seated after the standard pass is
an input guest, each at most once when input ids are distinct. -/
theorem stdStage_ids (guests : List Guest) (config : OptimizationConfig)
    (hnd : (guests.map (fun y => Guest.id y)).Nodup) :
    tableIds (stdStage guests config).tables ≤ guestIds guests := by
  unfold stdStage
  dsimp only
  have hks := knightStage_ids guests config hnd
  have hinv := knightStage_StInv (config.tableCapacity.getD 12) guests config
  have hsort : poolIds (insertionSort (fun a b => decide (b.size ≤ a.size))
      (knightStage guests config).2) = poolIds (knightStage guests config).2 :=
    poolIds_perm (insertionSort_perm _ _)
  have hbound : tableIds (knightStage guests config).1.tables +
      poolIds (insertionSort (fun a b => decide (b.size ≤ a.size))
        (knightStage guests config).2) ≤ guestIds guests := by
    rw [hsort]
    exact hks
  have hndp : (tableIds (knightStage guests config).1.tables +
      poolIds (insertionSort (fun a b => decide (b.size ≤ a.size))
        (knightStage guests config).2)).Nodup :=
    Multiset.nodup_of_le hbound (Multiset.coe_nodup.2 hnd)
  have h2 := stdPhase_ids (config.knightConfig.getD defaultKnight).capacity
    (config.tableCapacity.getD 12)
    (insertionSort (fun a b => decide (b.size ≤ a.size))
      (knightStage guests config).2)
    (knightStage guests config).1 hinv hndp
  exact le_trans h2 hbound

/-- Consolidation leaves the final seated multiset equal to the
post-standard-pass one. -/
theorem final_tableIds (guests : List Guest) (config : OptimizationConfig) :
    tableIds (optimizeSeating guests config).tables =
      tableIds (stdStage guests config).tables :=
  consolidate_ids _ (stdStage_StInv guests config).1.1

/-- Pointwise value of the per-table assignment fold. -/
theorem updFold_apply (tid : Nat) :
    ∀ (l : List Guest) (m : String → Option Nat) (x : String),
    (l.foldl (fun (m : String → Option Nat) (g : Guest) =>
        Function.update m g.id (some tid)) m) x =
      if x ∈ l.map (fun y => Guest.id y) then some tid else m x := by
  intro l
  induction l with
  | nil =>
    intro m x
    simp
  | cons g rest ih =>
    intro m x
    rw [List.foldl_cons, ih]
    by_cases hx : x ∈ rest.map (fun y => Guest.id y)
    · rw [if_pos hx, if_pos (by simp [hx])]
    · by_cases hg : x = g.id
      · rw [if_neg hx, if_pos (by simp [hg])]
        show Function.update m g.id (some tid) x = some tid
        rw [Function.update_apply, if_pos hg]
      · rw [if_neg hx, if_neg (by simp [hg, hx])]
        show Function.update m g.id (some tid) x = m x
        rw [Function.update_apply, if_neg hg]

/-- The assignment fold leaves unseated ids at the accumulator value. -/
theorem buildFold_not_seated :
    ∀ (ts : List (Nat × WTable)) (m : String → Option Nat) (x : String),
    x ∉ tableIds ts →
    (ts.foldl (fun (m : String → Option Nat) (p : Nat × WTable) =>
      p.2.guests.foldl
        (fun m g => Function.update m g.id (some p.1)) m) m) x = m x := by
  intro ts
  induction ts with
  | nil => intro m x _; rfl
  | cons p rest ih =>
    intro m x hx
    rw [tableIds_cons] at hx
    have hx1 : x ∉ p.2.guests.map (fun y => Guest.id y) := fun h =>
      hx (Multiset.mem_add.2 (Or.inl (Multiset.mem_coe.2 h)))
    have hx2 : x ∉ tableIds rest := fun h =>
      hx (Multiset.mem_add.2 (Or.inr h))
    rw [List.foldl_cons, ih _ _ hx2]
    show (p.2.guests.foldl (fun (m : String → Option Nat) (g : Guest) =>
      Function.update m g.id (some p.1)) m) x = m x
    rw [updFold_apply, if_neg hx1]

/-- With distinct seated ids, the assignment fold maps each seated id to
the id of its (unique) table. -/
theorem buildFold_seated :
    ∀ (ts : List (Nat × WTable)) (m : String → Option Nat) (x : String)
      (q : Nat × WTable),
    (tableIds ts).Nodup → q ∈ ts → x ∈ q.2.guests.map (fun y => Guest.id y) →
    (ts.foldl (fun (m : String → Option Nat) (p : Nat × WTable) =>
      p.2.guests.foldl
        (fun m g => Function.update m g.id (some p.1)) m) m) x = some q.1 := by
  intro ts
  induction ts with
  | nil => intro m x q _ hq _; cases hq
  | cons p rest ih =>
    intro m x q hnd hq hx
    rw [tableIds_cons] at hnd
    rw [List.foldl_cons]
    rcases List.mem_cons.1 hq with rfl | hq2
    · have hxrest : x ∉ tableIds rest :=
        Multiset.disjoint_left.1 (Multiset.nodup_add.1 hnd).2.2
          (Multiset.mem_coe.2 hx)
      rw [buildFold_not_seated rest _ x hxrest]
      show (q.2.guests.foldl (fun (m : String → Option Nat) (g : Guest) =>
        Function.update m g.id (some q.1)) m) x = some q.1
      rw [updFold_apply, if_pos hx]
    · exact ih _ x q (Multiset.nodup_add.1 hnd).2.1 hq2 hx

/-- An id is seated in the collection iff some table holds it. -/
theorem mem_tableIds {ts : List (Nat × WTable)} {x : String} :
    x ∈ tableIds ts ↔
      ∃ p ∈ ts, x ∈ p.2.guests.map (fun y => Guest.id y) := by
  unfold tableIds allSeated guestIds
  constructor
  · intro h
    have h2 := Multiset.mem_coe.1 h
    rw [List.mem_map] at h2
    obtain ⟨g, hg, rfl⟩ := h2
    rw [List.mem_flatten] at hg
    obtain ⟨l, hl, hgl⟩ := hg
    rw [List.mem_map] at hl
    obtain ⟨p, hp, rfl⟩ := hl
    exact ⟨p, hp, List.mem_map_of_mem _ hgl⟩
  · rintro ⟨p, hp, hx⟩
    rw [List.mem_map] at hx
    obtain ⟨g, hg, rfl⟩ := hx
    apply Multiset.mem_coe.2
    rw [List.mem_map]
    exact ⟨g, List.mem_flatten.2 ⟨p.2.guests, List.mem_map_of_mem _ hp, hg⟩, rfl⟩

/-- For a table collection with distinct seated ids, the regenerated map
answers exactly table membership. -/
theorem buildFinalAssign_spec (ts : List (Nat × WTable))
    (hnd : (tableIds ts).Nodup) (x : String) (tid : Nat) :
    buildFinalAssign ts x = some tid ↔
      ∃ p ∈ ts, p.1 = tid ∧ x ∈ p.2.guests.map (fun y => Guest.id y) := by
  constructor
  · intro h
    by_cases hx : x ∈ tableIds ts
    · obtain ⟨p, hp, hxp⟩ := mem_tableIds.1 hx
      have h3 : buildFinalAssign ts x = some p.1 :=
        buildFold_seated ts (fun _ => none) x p hnd hp hxp
      rw [h] at h3
      exact ⟨p, hp, (Option.some.inj h3).symm, hxp⟩
    · have h3 : buildFinalAssign ts x = none :=
        buildFold_not_seated ts (fun _ => none) x hx
      rw [h] at h3
      cases h3
  · rintro ⟨p, hp, rfl, hxp⟩
    exact buildFold_seated ts (fun _ => none) x p hnd hp hxp

/-! ### C10 -/

/-- C10: assignment/table consistency.  The returned assignments map is
regenerated from the final tables, and for id-distinct input guests every
id sits in at most one final table, so a guest id maps to a table id in
the result exactly when that guest appears in that table's member list in
the result; in particular guests of merged-away tables are remapped to the
surviving merge target and no assignment references a deleted table id. -/
theorem C10_assignment_consistent (guests : List Guest)
    (config : OptimizationConfig)
    (hnd : (guests.map (fun y => Guest.id y)).Nodup) (gid : String) (tid : Nat) :
    (optimizeSeating guests config).assignments gid = some tid ↔
    ∃ p ∈ (optimizeSeating guests config).tables,
      p.1 = tid ∧ gid ∈ p.2.guests.map (fun y => Guest.id y) := by
  have hfin : (tableIds (optimizeSeating guests config).tables).Nodup := by
    rw [final_tableIds]
    exact Multiset.nodup_of_le (stdStage_ids guests config hnd)
      (Multiset.coe_nodup.2 hnd)
  have hassign : (optimizeSeating guests config).assignments =
      buildFinalAssign (optimizeSeating guests config).tables := rfl
  rw [hassign]
  exact buildFinalAssign_spec _ hfin gid tid

/-- Witness: a concrete run (one groom family guest, default config) where
the equivalence instantiates — the guest is mapped to table 0 because they
sit at table 0. -/
theorem C10_witness :
    (optimizeSeating [tieGroomGuest] {}).assignments "t1" = some 0 :=
  (C10_assignment_consistent [tieGroomGuest] {} (by decide) "t1" 0).mpr
    (by decide)
